import Mathlib

/-!
# Call trees and the labels cache

A shallow embedding of

* `pkg/storage/tree/tree_arenas_enabled.go` : `InsertStackA`, `insertA`, `newNodeA`, `NewA`;
* `pkg/og/storage/tree/labels_cache.go` : `LabelsCache` and its methods, `NewCacheEntry`,
  `CopyLabels`, `CutLabel`, `CopyLabel`.

Conventions of the embedding.

* A `[]byte` is a list of bytes, each byte held as a natural number; `uint64` fields are
  natural numbers and every `+=` on them is reduced modulo `2 ^ 64`.
* A `*treeNode` that is owned by its parent is the node value itself; the pointer that
  `InsertStackA` walks down the tree becomes a recursion along the stack.
* A `*Label` is the label it points to, except in the namespace `Ptr`, where `CopyLabel`
  and `CopyLabels` are written again over a heap of labels, a copy having a new address.
* A Go `map` is an association list read by its first matching key; the bucket of a sample
  type belongs to that sample type alone.
* A `*LabelsCacheEntry` is an address into an explicit heap of entries, so that
  "the same entry" is equality of addresses; an address outside the heap stands for nil.
* The heap-backed `InsertStack` of `tree.go`, which `InsertStackA` calls when the tree has no
  arena, is not among the sources and is written from the specification.
-/

namespace Pyro

/-! ## Byte strings -/

/-- A byte string, the Go type `[]byte`. -/
abbrev Bytes := List Nat

/-- The function `bytes.Compare` of the Go library: lexicographic comparison, with result
`-1`, `0` or `1`. -/
def bytesCompare : Bytes → Bytes → Int
  | [], [] => 0
  | [], _ :: _ => -1
  | _ :: _, [] => 1
  | x :: xs, y :: ys => if x < y then -1 else if y < x then 1 else bytesCompare xs ys

/-- The function `bytes.Equal` of the Go library. -/
def bytesEqual (x y : Bytes) : Bool := decide (x = y)

/-! ## Library functions on slices -/

/-- The loop of `sort.Search`: `for i < j { h := int(uint(i+j) >> 1); if !f(h) { i = h + 1 }
else { j = h } }; return i`, run for at most `fuel` iterations. -/
def searchLoop (f : Nat → Bool) : Nat → Nat → Nat → Nat
  | 0, i, _ => i
  | fuel + 1, i, j =>
    if i < j then
      let h := (i + j) / 2
      if !f h then searchLoop f fuel (h + 1) j else searchLoop f fuel i h
    else i

/-- The function `sort.Search` of the Go library; `n` iterations always suffice, since the
distance `j - i` shrinks in every iteration (`searchLoop_fuel`). -/
def sortSearch (n : Nat) (f : Nat → Bool) : Nat := searchLoop f n 0 n

/-- The builtin `copy(dst, src)`: the first `min (len dst) (len src)` elements of `dst` are
overwritten by those of `src`; the value is the new content of `dst`. -/
def goCopy {α : Type} (dst src : List α) : List α :=
  src.take (min dst.length src.length) ++ dst.drop (min dst.length src.length)

/-- Applies `f` to the element at index `i`: the effect of updating a node through the
pointer `n.ChildrenNodes[i]`. -/
def updateAt {α : Type} (f : α → α) : Nat → List α → List α
  | _, [] => []
  | 0, x :: xs => f x :: xs
  | i + 1, x :: xs => x :: updateAt f i xs

/-! ## Tree nodes -/

/-- Modelled from the spec: the handle of a bulk allocator (`arenahelper.ArenaWrapper`, whose
declaration is not among the sources). It only supplies memory, so it is a bare tag. -/
structure ArenaWrapper where
  Arena : Nat
deriving DecidableEq, Repr

/-- Modelled from the spec: the declaration of `treeNode` is not among the sources; these are
the four fields that `InsertStackA`, `insertA` and `newNodeA` read and write: the frame name,
the `uint64` counters `Total` and `Self`, and the children. -/
inductive treeNode where
  | mk (Name : Bytes) (Total : Nat) (Self : Nat) (ChildrenNodes : List treeNode)
deriving Repr

namespace treeNode

/-- Field `Name`. -/
def Name : treeNode → Bytes
  | mk n _ _ _ => n

/-- Field `Total`. -/
def Total : treeNode → Nat
  | mk _ t _ _ => t

/-- Field `Self`. -/
def Self : treeNode → Nat
  | mk _ _ s _ => s

/-- Field `ChildrenNodes`. -/
def ChildrenNodes : treeNode → List treeNode
  | mk _ _ _ cs => cs

end treeNode

/-- The modulus of `uint64` arithmetic. -/
def u64 : Nat := 2 ^ 64

/-- `newNodeA`: a zero-initialised node from the arena, with its name set. -/
def newNodeA (_a : ArenaWrapper) (label : Bytes) : treeNode :=
  treeNode.mk label 0 0 []

/-- Modelled from the spec: `arenahelper.AppendA`, the arena version of `append` (its body is
not among the sources). -/
def AppendA {α : Type} (data : List α) (v : α) (_a : ArenaWrapper) : List α :=
  data ++ [v]

/-- The test closure that `insertA` hands to `sort.Search`:
`bytes.Compare(n.ChildrenNodes[i].Name, targetLabel) >= 0`. `sort.Search` only calls it with
`i < len(n.ChildrenNodes)`; the value given outside that range is never used. -/
def searchPred (cs : List treeNode) (targetLabel : Bytes) (i : Nat) : Bool :=
  match cs.get? i with
  | some c => decide (bytesCompare c.Name targetLabel ≥ 0)
  | none => true

/-- The index computed on the first line of `insertA`. -/
def searchIndex (cs : List treeNode) (targetLabel : Bytes) : Nat :=
  sortSearch cs.length (searchPred cs targetLabel)

/-- The guard of `insertA`:
`i > len(n.ChildrenNodes)-1 || !bytes.Equal(n.ChildrenNodes[i].Name, targetLabel)`. -/
def childMissing (cs : List treeNode) (targetLabel : Bytes) (i : Nat) : Bool :=
  decide ((i : Int) > (cs.length : Int) - 1) ||
    match cs.get? i with
    | some c => !bytesEqual c.Name targetLabel
    | none => true

/-- The body of the `if` of `insertA`: append the new child, shift the tail one place to the
right with `copy`, store the child at index `i`. -/
def insertChildAt (a : ArenaWrapper) (cs : List treeNode) (child : treeNode) (i : Nat) :
    List treeNode :=
  let cs1 := AppendA cs child a
  let cs2 := cs1.take (i + 1) ++ goCopy (cs1.drop (i + 1)) (cs1.drop i)
  cs2.set i child

/-- `treeNode.insertA` on the children of the receiver: the index `i` of the child named
`targetLabel` (the method returns `n.ChildrenNodes[i]`) and the children afterwards. -/
def insertA (a : ArenaWrapper) (cs : List treeNode) (targetLabel : Bytes) :
    Nat × List treeNode :=
  let i := searchIndex cs targetLabel
  if childMissing cs targetLabel i then
    let l := targetLabel
    let child := newNodeA a l
    (i, insertChildAt a cs child i)
  else (i, cs)

/-- The body of `InsertStackA` once the arena is known, started at node `n`: every node on
the way down gets `Total += v` and is left through `insertA`; the last node reached gets
`Total += v` and `Self += v`. -/
def insertLoop (a : ArenaWrapper) : List Bytes → Nat → treeNode → treeNode
  | [], v, treeNode.mk name total self cs =>
    treeNode.mk name ((total + v) % u64) ((self + v) % u64) cs
  | s :: rest, v, treeNode.mk name total self cs =>
    let r := insertA a cs s
    treeNode.mk name ((total + v) % u64) self (updateAt (insertLoop a rest v) r.1 r.2)

/-- The type `Tree`: the root and the optional arena. -/
structure Tree where
  root : treeNode
  arena : Option ArenaWrapper

/-- `NewA`: an empty tree whose root has the empty name. -/
def NewA (a : ArenaWrapper) : Tree :=
  { root := newNodeA a [], arena := some a }

/-! ## The heap-backed insertion -/

/-- Modelled from the spec: `newNode`, the heap-backed constructor of a node (`tree.go` is not
among the sources): "create a new child node (name = frame name, Total = Self = 0, no
children)". -/
def newNode (label : Bytes) : treeNode :=
  treeNode.mk label 0 0 []

/-- Modelled from the spec: the "computed sorted position" of a frame name among the children
of a node, the number of children whose name is smaller. -/
def sortedPosition (cs : List treeNode) (targetLabel : Bytes) : Nat :=
  cs.countP (fun c => decide (bytesCompare c.Name targetLabel < 0))

/-- Modelled from the spec: the heap-backed `insert` of a node (`tree.go` is not among the
sources): "locate the child whose name equals the frame name [...]; if absent, create a new
child node [...] and insert it at the computed sorted position, shifting subsequent siblings".
The value is the index of the child to descend into and the children afterwards. -/
def insert (cs : List treeNode) (targetLabel : Bytes) : Nat × List treeNode :=
  match cs.findIdx? (fun c => bytesEqual c.Name targetLabel) with
  | some i => (i, cs)
  | none =>
    let i := sortedPosition cs targetLabel
    (i, cs.take i ++ newNode targetLabel :: cs.drop i)

/-- Modelled from the spec: the loop of the heap-backed `InsertStack` (`tree.go` is not among
the sources): "For each frame name in the stack, in order: increment the current node's `Total`
by `weight`; locate the child [...]; descend into that child. After the last frame, increment
the final node's `Self` by `weight`", the final node's `Total` carrying the weight as well
("an empty stack increments only the root's `Self`/`Total`"). -/
def insertStackLoop : List Bytes → Nat → treeNode → treeNode
  | [], v, treeNode.mk name total self cs =>
    treeNode.mk name ((total + v) % u64) ((self + v) % u64) cs
  | s :: rest, v, treeNode.mk name total self cs =>
    let r := insert cs s
    treeNode.mk name ((total + v) % u64) self (updateAt (insertStackLoop rest v) r.1 r.2)

/-- Modelled from the spec: `Tree.InsertStack`, the heap-backed insertion. -/
def InsertStack (t : Tree) (stack : List Bytes) (v : Nat) : Tree :=
  { t with root := insertStackLoop stack v t.root }

/-- Modelled from the spec: `New`, the heap-backed empty tree: a root with the empty name and
no arena. -/
def New : Tree :=
  { root := newNode [], arena := none }

/-- `Tree.InsertStackA`: without an arena the call is handed to `InsertStack`, with one the
stack is inserted from the root. -/
def InsertStackA (t : Tree) (stack : List Bytes) (v : Nat) : Tree :=
  match t.arena with
  | none => InsertStack t stack v
  | some a => { t with root := insertLoop a stack v t.root }

/-- A sequence of `InsertStackA` calls, one for each (stack, weight) pair, in order. -/
def insertAllA (t : Tree) (ops : List (List Bytes × Nat)) : Tree :=
  ops.foldl (fun t op => InsertStackA t op.1 op.2) t

/-- A sequence of `InsertStack` calls, one for each (stack, weight) pair, in order. -/
def insertAll (t : Tree) (ops : List (List Bytes × Nat)) : Tree :=
  ops.foldl (fun t op => InsertStack t op.1 op.2) t

/-! ## Properties of trees -/

mutual
/-- The test `p` holds at the node and at every node below it. -/
def allNodes (p : treeNode → Bool) : treeNode → Bool
  | treeNode.mk name total self cs => p (treeNode.mk name total self cs) && allList p cs
/-- The test `p` holds at every node of a list of subtrees. -/
def allList (p : treeNode → Bool) : List treeNode → Bool
  | [] => true
  | c :: cs => allNodes p c && allList p cs
end

/-- The sum of the `Total` of a list of nodes. -/
def sumTotal (cs : List treeNode) : Nat :=
  (cs.map treeNode.Total).sum

/-- The node satisfies `Total = Self + Σ children[i].Total` in `uint64` arithmetic. -/
def sumOk (n : treeNode) : Bool :=
  decide (n.Total = (n.Self + sumTotal n.ChildrenNodes) % u64)

/-- The name of `c` is strictly smaller than the name of `d`, for `bytes.Compare`. -/
def nameLt (c d : treeNode) : Prop :=
  bytesCompare c.Name d.Name < 0

instance (c d : treeNode) : Decidable (nameLt c d) := by
  unfold nameLt; exact inferInstance

/-- The children of the node are strictly ascending by name. -/
def sortedOk (n : treeNode) : Bool :=
  decide (n.ChildrenNodes.Pairwise nameLt)

/-- The first child with the given name. -/
def findChild (cs : List treeNode) (name : Bytes) : Option treeNode :=
  cs.find? (fun c => bytesEqual c.Name name)

/-- The node reached from `n` along a path of frame names. -/
def nodeAt : treeNode → List Bytes → Option treeNode
  | n, [] => some n
  | treeNode.mk _ _ _ cs, s :: p =>
    match findChild cs s with
    | some c => nodeAt c p
    | none => none

/-- The sum, in `uint64` arithmetic, of the weights of the pairs selected by `sel`. -/
def weightSum (sel : List Bytes → Bool) (ops : List (List Bytes × Nat)) : Nat :=
  ((ops.filter (fun op => sel op.1)).map (fun op => op.2)).sum % u64

/-- The child list with `f` applied to the child named `t`, which is first inserted as a new
node at its place when no child has that name. On strictly ascending children this is what
both `insertA` and `insert`, followed by an update of the child, come to. -/
def upsert (f : treeNode → treeNode) (t : Bytes) : List treeNode → List treeNode
  | [] => [f (treeNode.mk t 0 0 [])]
  | c :: cs =>
    if bytesCompare c.Name t < 0 then c :: upsert f t cs
    else if c.Name = t then f c :: cs
    else f (treeNode.mk t 0 0 []) :: c :: cs

/-- The number of leading children whose name is smaller than `t`. -/
def lowerIdx (cs : List treeNode) (t : Bytes) : Nat :=
  (cs.takeWhile (fun c => decide (bytesCompare c.Name t < 0))).length

/-- The insertion loop written with `upsert`; on trees with strictly ascending children both
`insertLoop` and `insertStackLoop` agree with it. -/
def insertRef : List Bytes → Nat → treeNode → treeNode
  | [], v, treeNode.mk name total self cs =>
    treeNode.mk name ((total + v) % u64) ((self + v) % u64) cs
  | s :: rest, v, treeNode.mk name total self cs =>
    treeNode.mk name ((total + v) % u64) self (upsert (insertRef rest v) s cs)

/-- The pair (`Total`, `Self`) of the node reached from `n` along a path, if there is one. -/
def statAt (n : treeNode) (p : List Bytes) : Option (Nat × Nat) :=
  (nodeAt n p).map (fun c => (c.Total, c.Self))

/-- The names of the children of the node are pairwise different. -/
def distinctOk (n : treeNode) : Bool :=
  decide ((n.ChildrenNodes.map treeNode.Name).Nodup)

/-- A sequence of insertions with `insertRef`, started at a node. -/
def insertAllRef (n : treeNode) (ops : List (List Bytes × Nat)) : treeNode :=
  ops.foldl (fun n op => insertRef op.1 op.2 n) n

/-! ## Labels -/

/-- Modelled from the spec: the declaration of `Label` is not among the sources; these are the
four fields that `CopyLabel` reads. -/
structure Label where
  Key : Int
  Str : Int
  Num : Int
  NumUnit : Int
deriving DecidableEq, Repr

/-- The type `Labels`, a slice of labels. A `*Label` is the label it points to. -/
abbrev Labels := List Label

/-- `CopyLabel`: a new label with the four fields of the given one. -/
def CopyLabel (label : Label) : Label :=
  { Key := label.Key, Str := label.Str, Num := label.Num, NumUnit := label.NumUnit }

/-- `CopyLabels`: a new slice of the same length whose slot `i` receives
`CopyLabel(labels[i])`. -/
def CopyLabels (labels : Labels) : Labels :=
  labels.map CopyLabel

/-! ## Go maps -/

/-- A Go `map[K]V`: an association list, read by its first matching key. -/
abbrev GoMap (K V : Type) := List (K × V)

namespace GoMap

variable {K V : Type} [DecidableEq K]

/-- The read `v, ok := m[k]`. -/
def get? : GoMap K V → K → Option V
  | [], _ => none
  | (k', v) :: m, k => if k' = k then some v else get? m k

/-- The statement `delete(m, k)`. -/
def delete (m : GoMap K V) (k : K) : GoMap K V :=
  m.filter (fun kv => !decide (kv.1 = k))

/-- The assignment `m[k] = v`. -/
def set (m : GoMap K V) (k : K) (v : V) : GoMap K V :=
  (k, v) :: delete m k

/-- The builtin `len(m)`: the number of keys. -/
def len (m : GoMap K V) : Nat :=
  ((m.map Prod.fst).dedup).length

end GoMap

/-! ## The labels cache -/

/-- `LabelsCacheEntry[T]`: the embedded `Labels` and the pointer `Value`, `none` when nil. -/
structure LabelsCacheEntry (T : Type) where
  Labels : Labels
  Value : Option T

/-- A `*LabelsCacheEntry[T]`: the address of an entry in the heap of entries. -/
abbrev EntryRef := Nat

/-- `LabelsCache[T]`: sample type -> labels hash -> entry. -/
abbrev LabelsCache := GoMap Int (GoMap Nat EntryRef)

/-- The cache together with the entries allocated so far; the entry at address `e` is
`heap[e]`. Every method of the cache is a function from such a state to its result and the
state afterwards. -/
structure CacheState (T : Type) where
  heap : List (LabelsCacheEntry T)
  c : LabelsCache

/-- `NewCacheEntry`: allocates an entry holding a copy of the labels and a nil `Value`. -/
def NewCacheEntry {T : Type} (heap : List (LabelsCacheEntry T)) (l : Labels) :
    EntryRef × List (LabelsCacheEntry T) :=
  (heap.length, heap ++ [{ Labels := CopyLabels l, Value := none }])

/-- `LabelsCache.GetOrCreateTree`; `hash` is the method `Labels.Hash`, whose body is not
among the sources. -/
def GetOrCreateTree {T : Type} (hash : Labels → Nat) (st : CacheState T) (sampleType : Int)
    (l : Labels) : EntryRef × CacheState T :=
  match st.c.get? sampleType with
  | none =>
    let r := NewCacheEntry st.heap l
    (r.1, { heap := r.2, c := st.c.set sampleType (GoMap.set [] (hash l) r.1) })
  | some p =>
    let h := hash l
    match p.get? h with
    | some e => (e, st)
    | none =>
      let r := NewCacheEntry st.heap l
      (r.1, { heap := r.2, c := st.c.set sampleType (p.set h r.1) })

/-- `LabelsCache.GetOrCreateTreeByHash`. -/
def GetOrCreateTreeByHash {T : Type} (st : CacheState T) (sampleType : Int) (l : Labels)
    (h : Nat) : EntryRef × CacheState T :=
  match st.c.get? sampleType with
  | none =>
    let r := NewCacheEntry st.heap l
    (r.1, { heap := r.2, c := st.c.set sampleType (GoMap.set [] h r.1) })
  | some p =>
    match p.get? h with
    | some e => (e, st)
    | none =>
      let r := NewCacheEntry st.heap l
      (r.1, { heap := r.2, c := st.c.set sampleType (p.set h r.1) })

/-- `LabelsCache.Get`: the entry (`none` for nil) and the flag, and the state afterwards. -/
def Get {T : Type} (st : CacheState T) (sampleType : Int) (h : Nat) :
    (Option EntryRef × Bool) × CacheState T :=
  match st.c.get? sampleType with
  | none => ((none, false), st)
  | some p =>
    match p.get? h with
    | some x => ((some x, true), st)
    | none => ((none, false), st)

/-- What a call that can panic leaves behind: the state, and whether the call returned. -/
inductive Outcome (σ : Type) where
  | returned (st : σ)
  | panicked (st : σ)

/-- The state that the call leaves, returned or not. -/
def Outcome.state {σ : Type} : Outcome σ → σ
  | Outcome.returned st => st
  | Outcome.panicked st => st

/-- The first lines of `Put`: `p, ok := c[sampleType]; if !ok { p = make(...);
c[sampleType] = p }`. The value is the cache afterwards, with the new empty bucket stored
when there was none. -/
def storeBucket (c : LabelsCache) (sampleType : Int) : LabelsCache :=
  match c.get? sampleType with
  | none => c.set sampleType []
  | some _ => c

/-- `LabelsCache.Put`. The bucket is looked up, and made and stored when absent; then
`p[e.Hash()] = e` reads the labels of the entry at address `e`. An address that is not the
address of an entry stands for a nil pointer: `e.Hash()` panics, and the cache is left with
the bucket as stored by the first lines. -/
def Put {T : Type} (hash : Labels → Nat) (st : CacheState T) (sampleType : Int)
    (e : EntryRef) : Outcome (CacheState T) :=
  let p : GoMap Nat EntryRef := match st.c.get? sampleType with
    | none => []
    | some p => p
  let c1 := storeBucket st.c sampleType
  match st.heap.get? e with
  | none => Outcome.panicked { st with c := c1 }
  | some entry =>
    Outcome.returned { st with c := c1.set sampleType (p.set (hash entry.Labels) e) }

/-- `LabelsCache.Remove`. -/
def Remove {T : Type} (st : CacheState T) (sampleType : Int) (h : Nat) : CacheState T :=
  match st.c.get? sampleType with
  | none => st
  | some p =>
    let p1 := p.delete h
    if p1.len = 0 then { st with c := st.c.delete sampleType }
    else { st with c := st.c.set sampleType p1 }

/-- The outer map has the key `sampleType`. -/
def hasBucket {T : Type} (st : CacheState T) (sampleType : Int) : Bool :=
  (st.c.get? sampleType).isSome

/-- The entry that the cache holds for a sample type and a hash, if any. -/
def lookupEntry (c : LabelsCache) (sampleType : Int) (h : Nat) : Option EntryRef :=
  (c.get? sampleType).bind (fun p => p.get? h)

/-- A label set with one label, for the examples. -/
def exampleLabels : Labels :=
  [{ Key := 1, Str := 2, Num := 0, NumUnit := 0 }]

/-- The method `Labels.Hash` taken in the examples: the number of labels. -/
def exampleHash (l : Labels) : Nat :=
  l.length

/-- A cache for the examples: one entry, at address `0`, kept under sample type 1 and
hash 5. -/
def exampleState : CacheState Unit :=
  { heap := [{ Labels := exampleLabels, Value := none }], c := [(1, [(5, 0)])] }

/-- One call of a method of the cache. -/
inductive CacheCall where
  | getOrCreateTree (sampleType : Int) (l : Labels)
  | getOrCreateTreeByHash (sampleType : Int) (l : Labels) (h : Nat)
  | get (sampleType : Int) (h : Nat)
  | put (sampleType : Int) (e : EntryRef)
  | remove (sampleType : Int) (h : Nat)

/-- One call on a state: what it leaves behind. Only `Put` can panic. -/
def stepCall {T : Type} (hash : Labels → Nat) (st : CacheState T) :
    CacheCall → Outcome (CacheState T)
  | CacheCall.getOrCreateTree sampleType l =>
    Outcome.returned (GetOrCreateTree hash st sampleType l).2
  | CacheCall.getOrCreateTreeByHash sampleType l h =>
    Outcome.returned (GetOrCreateTreeByHash st sampleType l h).2
  | CacheCall.get sampleType h => Outcome.returned (Get st sampleType h).2
  | CacheCall.put sampleType e => Put hash st sampleType e
  | CacheCall.remove sampleType h => Outcome.returned (Remove st sampleType h)

/-- The state after a sequence of calls on the same cache. A call that panics has changed the
cache all the same, and the calls after it (made once the panic is recovered) start from the
state it left. -/
def runCalls {T : Type} (hash : Labels → Nat) : CacheState T → List CacheCall → CacheState T
  | st, [] => st
  | st, call :: calls => runCalls hash (stepCall hash st call).state calls

/-- Every call of the sequence returns. -/
def allReturn {T : Type} (hash : Labels → Nat) : CacheState T → List CacheCall → Prop
  | _, [] => True
  | st, call :: calls =>
    match stepCall hash st call with
    | Outcome.returned st1 => allReturn hash st1 calls
    | Outcome.panicked _ => False

/-- Every bucket of the outer map holds at least one entry. -/
def sparse (c : LabelsCache) : Prop :=
  ∀ sampleType p, c.get? sampleType = some p → ∃ h e, p.get? h = some e

/-- The loop of `CutLabel`, `for j, label := range labels { if i != j { c = append(c,
CopyLabel(label)) } }`, from index `j` on. -/
def cutLoop (i : Int) : Nat → Labels → Labels → Labels
  | _, [], c => c
  | j, label :: rest, c =>
    cutLoop i (j + 1) rest (if i ≠ (j : Int) then c ++ [CopyLabel label] else c)

/-- `CutLabel`: `make(Labels, 0, len(labels)-1)`, which has no result when the capacity asked
for is negative, then the loop from `j = 0` with the empty `c`. -/
def CutLabel (labels : Labels) (i : Int) : Option Labels :=
  if (labels.length : Int) - 1 < 0 then none
  else some (cutLoop i 0 labels [])

/-- The four fields of a label. -/
def labelFields (l : Label) : Int × Int × Int × Int :=
  (l.Key, l.Str, l.Num, l.NumUnit)

/-- Three labels `(k1, v1)`, `(k2, v2)`, `(k3, v3)`, for the examples. -/
def exampleThree : Labels :=
  [{ Key := 1, Str := 11, Num := 0, NumUnit := 0 }, { Key := 2, Str := 12, Num := 0, NumUnit := 0 },
    { Key := 3, Str := 13, Num := 0, NumUnit := 0 }]

/-! ## Labels behind pointers

`CopyLabel` and `CopyLabels` once more, with every `*Label` an address in a heap of labels, so
that a copy of a label is told apart from the label itself. -/

namespace Ptr

/-- A `*Label`: `none` is the nil pointer, `some a` the address `a` in the heap of labels. -/
abbrev LabelPtr := Option Nat

/-- The type `Labels`, `[]*Label`, as a slice of pointers. -/
abbrev Labels := List LabelPtr

/-- The label behind a pointer; there is none behind nil. -/
def deref (heap : List Label) (p : LabelPtr) : Option Label :=
  match p with
  | none => none
  | some a => heap.get? a

/-- `CopyLabel`: `&Label{...}` allocates a new label, with the four fields read through
`label`; reading through nil panics and there is no result. The value is the new pointer and
the heap afterwards. -/
def CopyLabel (heap : List Label) (label : LabelPtr) : Option (LabelPtr × List Label) :=
  match deref heap label with
  | none => none
  | some l =>
    some (some heap.length,
      heap ++ [{ Key := l.Key, Str := l.Str, Num := l.Num, NumUnit := l.NumUnit }])

/-- The loop of `CopyLabels`, `for i, v := range labels { l[i] = CopyLabel(v) }`, from index
`i` on. -/
def copyLoop : Nat → Labels → List Label → Labels → Option (Labels × List Label)
  | _, [], heap, l => some (l, heap)
  | i, v :: rest, heap, l =>
    match CopyLabel heap v with
    | none => none
    | some r => copyLoop (i + 1) rest r.2 (l.set i r.1)

/-- `CopyLabels`: `l := make(Labels, len(labels))`, a slice of nil pointers, then the loop.
The value is the slice returned and the heap afterwards. -/
def CopyLabels (heap : List Label) (labels : Labels) : Option (Labels × List Label) :=
  copyLoop 0 labels heap (List.replicate labels.length none)

end Ptr

/-! ## The order on byte strings -/

theorem bytesCompare_range (x y : Bytes) :
    bytesCompare x y = -1 ∨ bytesCompare x y = 0 ∨ bytesCompare x y = 1 := by
  induction x generalizing y with
  | nil => cases y <;> simp [bytesCompare]
  | cons a x ih =>
    cases y with
    | nil => simp [bytesCompare]
    | cons b y =>
      simp only [bytesCompare]
      split
      · simp
      · split
        · simp
        · exact ih y

theorem bytesCompare_eq_zero (x y : Bytes) : bytesCompare x y = 0 ↔ x = y := by
  induction x generalizing y with
  | nil => cases y <;> simp [bytesCompare]
  | cons a x ih =>
    cases y with
    | nil => simp [bytesCompare]
    | cons b y =>
      simp only [bytesCompare]
      split
      · rename_i h; simp; intro h'; omega
      · split
        · rename_i h1 h2; simp; intro h'; omega
        · rename_i h1 h2
          have : a = b := by omega
          simp [this, ih]

theorem bytesCompare_swap (x y : Bytes) : bytesCompare y x = - bytesCompare x y := by
  induction x generalizing y with
  | nil => cases y <;> simp [bytesCompare]
  | cons a x ih =>
    cases y with
    | nil => simp [bytesCompare]
    | cons b y =>
      simp only [bytesCompare]
      by_cases h1 : a < b
      · have h2 : ¬ b < a := by omega
        simp [h1, h2]
      · by_cases h2 : b < a
        · simp [h1, h2]
        · simp [h1, h2, ih]

theorem bytesCompare_trans (x y z : Bytes) (h1 : bytesCompare x y < 0)
    (h2 : bytesCompare y z < 0) : bytesCompare x z < 0 := by
  induction x generalizing y z with
  | nil =>
    cases z with
    | nil => cases y <;> simp [bytesCompare] at h1 h2
    | cons c z => simp [bytesCompare]
  | cons a x ih =>
    cases y with
    | nil => simp [bytesCompare] at h1
    | cons b y =>
      cases z with
      | nil => simp [bytesCompare] at h2
      | cons c z =>
        simp only [bytesCompare] at h1 h2 ⊢
        by_cases hab : a < b
        · by_cases hbc : b < c
          · have : a < c := by omega
            simp [this]
          · by_cases hcb : c < b
            · simp [hbc, hcb] at h2
            · have : a < c := by omega
              simp [this]
        · by_cases hba : b < a
          · simp [hab, hba] at h1
          · simp only [hab, hba, if_false] at h1
            have e : a = b := by omega
            subst e
            by_cases hbc : a < c
            · simp [hbc]
            · by_cases hcb : c < a
              · simp [hbc, hcb] at h2
              · simp only [hbc, hcb, if_false] at h2 ⊢
                exact ih y z h1 h2

/-! ## Binary search -/

theorem searchLoop_bounds (f : Nat → Bool) (fuel i j : Nat) (hij : i ≤ j) :
    i ≤ searchLoop f fuel i j ∧ searchLoop f fuel i j ≤ j := by
  induction fuel generalizing i j with
  | zero => simp [searchLoop, hij]
  | succ fuel ih =>
    simp only [searchLoop]
    by_cases h : i < j
    · simp only [h, if_true]
      by_cases hf : f ((i + j) / 2) = true
      · have := ih i ((i + j) / 2) (by omega)
        simp only [hf, Bool.not_true, Bool.false_eq_true, if_false]
        omega
      · have := ih ((i + j) / 2 + 1) j (by omega)
        simp only [Bool.not_eq_true] at hf
        simp only [hf, Bool.not_false, if_true]
        omega
    · simp [h, hij]

theorem searchLoop_spec (f : Nat → Bool) (n : Nat)
    (hmono : ∀ a b, a ≤ b → b < n → f a = true → f b = true)
    (fuel i j : Nat) (hij : i ≤ j) (hjn : j ≤ n) (hfuel : j - i ≤ fuel)
    (hlo : ∀ k, k < i → f k = false) (hhi : ∀ k, j ≤ k → k < n → f k = true) :
    (∀ k, k < searchLoop f fuel i j → f k = false) ∧
      (∀ k, searchLoop f fuel i j ≤ k → k < n → f k = true) := by
  induction fuel generalizing i j with
  | zero =>
    have e : i = j := by omega
    subst e
    simp only [searchLoop]
    exact ⟨hlo, hhi⟩
  | succ fuel ih =>
    simp only [searchLoop]
    by_cases h : i < j
    · simp only [h, if_true]
      by_cases hf : f ((i + j) / 2) = true
      · simp only [hf, Bool.not_true, Bool.false_eq_true, if_false]
        refine ih i ((i + j) / 2) (by omega) (by omega) (by omega) hlo ?_
        intro k hk hkn
        exact hmono _ k hk hkn hf
      · simp only [Bool.not_eq_true] at hf
        simp only [hf, Bool.not_false, if_true]
        refine ih ((i + j) / 2 + 1) j (by omega) hjn (by omega) ?_ hhi
        intro k hk
        by_contra hc
        simp only [Bool.not_eq_false] at hc
        have := hmono k ((i + j) / 2) (by omega) (by omega) hc
        simp [hf] at this
    · have e : i = j := by omega
      subst e
      simp only [h, if_false]
      exact ⟨hlo, hhi⟩

/-- With `n` iterations the loop of `sort.Search` has run to its end (`i ≥ j`): more fuel does
not change the result. -/
theorem searchLoop_fuel (f : Nat → Bool) (fuel extra i j : Nat) (hfuel : j - i ≤ fuel) :
    searchLoop f (fuel + extra) i j = searchLoop f fuel i j := by
  induction fuel generalizing i j with
  | zero =>
    have e : ¬ i < j := by omega
    cases extra with
    | zero => rfl
    | succ m => simp [searchLoop, e]
  | succ fuel ih =>
    have e : fuel + 1 + extra = (fuel + extra) + 1 := by omega
    rw [e]
    simp only [searchLoop]
    by_cases h : i < j
    · simp only [h, if_true]
      by_cases hf : f ((i + j) / 2) = true
      · simp only [hf, Bool.not_true, Bool.false_eq_true, if_false]
        exact ih i _ (by omega)
      · simp only [Bool.not_eq_true] at hf
        simp only [hf, Bool.not_false, if_true]
        exact ih _ j (by omega)
    · simp [h]

theorem sortSearch_le (n : Nat) (f : Nat → Bool) : sortSearch n f ≤ n :=
  (searchLoop_bounds f n 0 n (Nat.zero_le n)).2

theorem sortSearch_spec (n : Nat) (f : Nat → Bool)
    (hmono : ∀ a b, a ≤ b → b < n → f a = true → f b = true) :
    (∀ k, k < sortSearch n f → f k = false) ∧
      (∀ k, sortSearch n f ≤ k → k < n → f k = true) :=
  searchLoop_spec f n hmono n 0 n (Nat.zero_le n) (Nat.le_refl n) (by omega)
    (fun k hk => absurd hk (Nat.not_lt_zero k)) (fun k hk hkn => absurd hkn (by omega))

/-! ## Insertion of a child -/

theorem insertChildAt_eq (a : ArenaWrapper) (cs : List treeNode) (child : treeNode) (i : Nat)
    (hi : i ≤ cs.length) :
    insertChildAt a cs child i = cs.take i ++ child :: cs.drop i := by
  induction cs generalizing i with
  | nil =>
    have : i = 0 := by simpa using hi
    subst this
    simp [insertChildAt, AppendA, goCopy]
  | cons c cs ih =>
    cases i with
    | zero =>
      simp [insertChildAt, AppendA, goCopy]
    | succ i =>
      have hi' : i ≤ cs.length := by simpa using hi
      have := ih i hi'
      simp only [insertChildAt, AppendA] at this ⊢
      simp only [List.cons_append, List.take_succ_cons, List.drop_succ_cons, List.set_cons_succ]
      rw [this]

theorem takeWhile_length_unique {α : Type} (p : α → Bool) (l : List α) (r : Nat)
    (hr : r ≤ l.length)
    (hlo : ∀ k, k < r → ∃ x, l.get? k = some x ∧ p x = true)
    (hhi : ∀ k x, r ≤ k → l.get? k = some x → p x = false) :
    (l.takeWhile p).length = r := by
  induction l generalizing r with
  | nil => simp at hr; simp [hr]
  | cons c l ih =>
    cases r with
    | zero =>
      have := hhi 0 c (Nat.le_refl 0) (by simp)
      simp [List.takeWhile, this]
    | succ r =>
      obtain ⟨x, hx, hp⟩ := hlo 0 (by omega)
      simp at hx
      subst hx
      simp only [List.takeWhile, hp, List.length_cons]
      congr 1
      apply ih r (by simpa using hr)
      · intro k hk
        obtain ⟨x, hx, hp⟩ := hlo (k + 1) (by omega)
        exact ⟨x, by simpa using hx, hp⟩
      · intro k x hk hx
        exact hhi (k + 1) x (by omega) (by simpa using hx)

theorem pairwise_get? {α : Type} {R : α → α → Prop} {l : List α} (h : l.Pairwise R)
    {i j : Nat} {x y : α} (hij : i < j) (hx : l.get? i = some x) (hy : l.get? j = some y) :
    R x y := by
  induction l generalizing i j with
  | nil => simp at hx
  | cons c l ih =>
    rw [List.pairwise_cons] at h
    cases j with
    | zero => omega
    | succ j =>
      simp only [List.get?_cons_succ] at hy
      cases i with
      | zero =>
        simp only [List.get?_cons_zero, Option.some.injEq] at hx
        subst hx
        exact h.1 y (List.get?_mem hy)
      | succ i =>
        simp only [List.get?_cons_succ] at hx
        exact ih h.2 (by omega) hx hy

theorem searchPred_mono (cs : List treeNode) (t : Bytes) (h : cs.Pairwise nameLt)
    (i j : Nat) (hij : i ≤ j) (hj : j < cs.length) (hi : searchPred cs t i = true) :
    searchPred cs t j = true := by
  rcases Nat.eq_or_lt_of_le hij with e | hlt
  · subst e; exact hi
  · have hi' : i < cs.length := by omega
    obtain ⟨x, hx⟩ : ∃ x, cs.get? i = some x := ⟨cs.get ⟨i, hi'⟩, List.get?_eq_get hi'⟩
    obtain ⟨y, hy⟩ : ∃ y, cs.get? j = some y := ⟨cs.get ⟨j, hj⟩, List.get?_eq_get hj⟩
    have hxy : bytesCompare x.Name y.Name < 0 := pairwise_get? h hlt hx hy
    simp only [searchPred, hx, hy, decide_eq_true_eq] at hi ⊢
    by_contra hc
    have := bytesCompare_trans _ _ _ hxy (by omega : bytesCompare y.Name t < 0)
    omega

theorem searchIndex_eq_lowerIdx (cs : List treeNode) (t : Bytes) (h : cs.Pairwise nameLt) :
    searchIndex cs t = lowerIdx cs t := by
  have hs := sortSearch_spec cs.length (searchPred cs t) (searchPred_mono cs t h)
  have hle := sortSearch_le cs.length (searchPred cs t)
  unfold lowerIdx searchIndex
  symm
  apply takeWhile_length_unique _ _ _ hle
  · intro k hk
    have hk' : k < cs.length := by omega
    refine ⟨cs.get ⟨k, hk'⟩, List.get?_eq_get hk', ?_⟩
    have := hs.1 k hk
    simp only [searchPred, List.get?_eq_get hk', decide_eq_false_iff_not] at this
    simp only [decide_eq_true_eq]
    omega
  · intro k x hk hx
    have hk' : k < cs.length := by
      rcases List.get?_eq_some.1 hx with ⟨hk', _⟩
      exact hk'
    have := hs.2 k hk hk'
    simp only [searchPred, hx, decide_eq_true_eq] at this
    simp only [decide_eq_false_iff_not]
    omega

theorem lowerIdx_le (cs : List treeNode) (t : Bytes) : lowerIdx cs t ≤ cs.length := by
  unfold lowerIdx
  exact (List.takeWhile_sublist _).length_le

theorem lowerIdx_cons (c : treeNode) (cs : List treeNode) (t : Bytes) :
    lowerIdx (c :: cs) t = if bytesCompare c.Name t < 0 then lowerIdx cs t + 1 else 0 := by
  unfold lowerIdx
  by_cases h : bytesCompare c.Name t < 0
  · simp [List.takeWhile, h]
  · simp [List.takeWhile, h]

theorem childMissing_cons_succ (c : treeNode) (cs : List treeNode) (t : Bytes) (i : Nat) :
    childMissing (c :: cs) t (i + 1) = childMissing cs t i := by
  unfold childMissing
  simp only [List.length_cons, List.get?_cons_succ, Nat.cast_add, Nat.cast_one]
  congr 1
  apply decide_eq_decide.2
  omega

theorem childMissing_cons_zero (c : treeNode) (cs : List treeNode) (t : Bytes) :
    childMissing (c :: cs) t 0 = !decide (c.Name = t) := by
  unfold childMissing bytesEqual
  have : ¬ ((0 : Nat) : Int) > ((c :: cs).length : Int) - 1 := by
    simp only [List.length_cons, Nat.cast_add, Nat.cast_one]; omega
  simp [this]

theorem childMissing_nil (t : Bytes) (i : Nat) : childMissing [] t i = true := by
  unfold childMissing
  simp

theorem update_lowerIdx_upsert (f : treeNode → treeNode) (t : Bytes) (cs : List treeNode) :
    updateAt f (lowerIdx cs t)
        (if childMissing cs t (lowerIdx cs t) = true then
          cs.take (lowerIdx cs t) ++ treeNode.mk t 0 0 [] :: cs.drop (lowerIdx cs t)
        else cs) = upsert f t cs := by
  induction cs with
  | nil => simp [childMissing_nil, lowerIdx, upsert, updateAt]
  | cons c cs ih =>
    rw [lowerIdx_cons]
    by_cases h : bytesCompare c.Name t < 0
    · simp only [h, if_true, childMissing_cons_succ, upsert]
      by_cases hm : childMissing cs t (lowerIdx cs t) = true
      · rw [if_pos hm] at ih
        rw [if_pos hm]
        simp only [List.take_succ_cons, List.drop_succ_cons, List.cons_append, updateAt]
        exact congrArg (fun l => c :: l) ih
      · rw [if_neg hm] at ih
        rw [if_neg hm]
        simp only [updateAt]
        rw [ih]
    · simp only [h, if_false, childMissing_cons_zero, upsert]
      by_cases hn : c.Name = t
      · simp [hn, updateAt]
      · simp [hn, updateAt]

theorem insertA_fst (a : ArenaWrapper) (cs : List treeNode) (t : Bytes) :
    (insertA a cs t).1 = searchIndex cs t := by
  unfold insertA
  simp only
  split <;> rfl

/-- On strictly ascending children, `insertA` followed by an update of the child it returns
is `upsert`. -/
theorem insertA_upsert (a : ArenaWrapper) (f : treeNode → treeNode) (t : Bytes)
    (cs : List treeNode) (h : cs.Pairwise nameLt) :
    updateAt f (insertA a cs t).1 (insertA a cs t).2 = upsert f t cs := by
  rw [← update_lowerIdx_upsert f t cs, insertA_fst, searchIndex_eq_lowerIdx cs t h]
  unfold insertA
  simp only [searchIndex_eq_lowerIdx cs t h]
  by_cases hm : childMissing cs t (lowerIdx cs t) = true
  · rw [if_pos hm, if_pos hm]
    simp only
    rw [insertChildAt_eq a cs _ _ (lowerIdx_le cs t)]
    rfl
  · rw [if_neg hm, if_neg hm]

theorem nameLt_not_ge_tail (c : treeNode) (cs : List treeNode) (t : Bytes)
    (h : (c :: cs).Pairwise nameLt) (hc : ¬ bytesCompare c.Name t < 0) :
    ∀ d ∈ cs, ¬ bytesCompare d.Name t < 0 ∧ d.Name ≠ t := by
  intro d hd
  have hcd : bytesCompare c.Name d.Name < 0 := (List.pairwise_cons.1 h).1 d hd
  constructor
  · intro hdt
    exact hc (bytesCompare_trans _ _ _ hcd hdt)
  · intro e
    rw [e] at hcd
    exact hc hcd

/-- On strictly ascending children, the heap-backed `insert` followed by an update of the child
it returns is `upsert`. -/
theorem insert_upsert (f : treeNode → treeNode) (t : Bytes) (cs : List treeNode)
    (h : cs.Pairwise nameLt) :
    updateAt f (insert cs t).1 (insert cs t).2 = upsert f t cs := by
  induction cs with
  | nil => simp [insert, sortedPosition, upsert, updateAt, newNode]
  | cons c cs ih =>
    have ih := ih (List.pairwise_cons.1 h).2
    by_cases hlt : bytesCompare c.Name t < 0
    · have hne : c.Name ≠ t := by
        intro e
        have := (bytesCompare_eq_zero c.Name t).2 e
        omega
      simp only [upsert, hlt, if_true]
      unfold insert at ih ⊢
      simp only [List.findIdx?_cons, bytesEqual, hne, decide_False, Bool.false_eq_true,
        if_false, zero_add, List.findIdx?_start_succ, sortedPosition, List.countP_cons, hlt,
        decide_True, if_true] at ih ⊢
      cases hfi : List.findIdx? (fun c => decide (c.Name = t)) cs with
      | none =>
        simp only [hfi, Option.map_none'] at ih ⊢
        simp only [List.take_succ_cons, List.drop_succ_cons, List.cons_append, updateAt]
        exact congrArg (fun l => c :: l) ih
      | some i =>
        simp only [hfi, Option.map_some'] at ih ⊢
        simp only [updateAt]
        exact congrArg (fun l => c :: l) ih
    · simp only [upsert, hlt, if_false]
      by_cases he : c.Name = t
      · simp [insert, bytesEqual, he, updateAt]
      · have htail := nameLt_not_ge_tail c cs t h hlt
        have hnone : List.findIdx? (fun c => bytesEqual c.Name t) (c :: cs) = none := by
          rw [List.findIdx?_eq_none_iff]
          intro x hx
          rcases List.mem_cons.1 hx with e | hx
          · subst e; simp [bytesEqual, he]
          · simp [bytesEqual, (htail x hx).2]
        have hpos : sortedPosition (c :: cs) t = 0 := by
          unfold sortedPosition
          rw [List.countP_eq_zero]
          intro x hx
          rcases List.mem_cons.1 hx with e | hx
          · subst e; simp [hlt]
          · simp only [decide_eq_true_eq]; exact (htail x hx).1
        unfold insert
        simp only [hnone, hpos, List.take_zero, List.nil_append, List.drop_zero, updateAt, he,
          if_false, newNode]

/-! ## Tests on all nodes -/

theorem allList_iff (p : treeNode → Bool) (cs : List treeNode) :
    allList p cs = true ↔ ∀ c ∈ cs, allNodes p c = true := by
  induction cs with
  | nil => simp [allList]
  | cons c cs ih => simp [allList, ih]

theorem allNodes_mk (p : treeNode → Bool) (name : Bytes) (total self : Nat)
    (cs : List treeNode) :
    allNodes p (treeNode.mk name total self cs) = true ↔
      p (treeNode.mk name total self cs) = true ∧ ∀ c ∈ cs, allNodes p c = true := by
  simp [allNodes, allList_iff]

theorem allNodes_leaf (p : treeNode → Bool) (name : Bytes) (total self : Nat)
    (h : p (treeNode.mk name total self []) = true) :
    allNodes p (treeNode.mk name total self []) = true := by
  simp [allNodes_mk, h]

/-! ## Properties of `upsert` -/

theorem upsert_congr (f g : treeNode → treeNode) (t : Bytes) (cs : List treeNode)
    (hcs : ∀ c ∈ cs, f c = g c) (hnew : f (treeNode.mk t 0 0 []) = g (treeNode.mk t 0 0 [])) :
    upsert f t cs = upsert g t cs := by
  induction cs with
  | nil => simp [upsert, hnew]
  | cons c cs ih =>
    have hc := hcs c (List.mem_cons_self c cs)
    have ih := ih (fun d hd => hcs d (List.mem_cons_of_mem c hd))
    simp only [upsert, hc, hnew, ih]

theorem upsert_mem (f : treeNode → treeNode) (t : Bytes) (cs : List treeNode) (d : treeNode)
    (hd : d ∈ upsert f t cs) :
    d ∈ cs ∨ (∃ c ∈ cs, c.Name = t ∧ d = f c) ∨ d = f (treeNode.mk t 0 0 []) := by
  induction cs with
  | nil =>
    simp only [upsert, List.mem_singleton] at hd
    exact Or.inr (Or.inr hd)
  | cons c cs ih =>
    simp only [upsert] at hd
    split at hd
    · rcases List.mem_cons.1 hd with e | hd
      · exact Or.inl (by simp [e])
      · rcases ih hd with h | ⟨x, hx, hn, e⟩ | h
        · exact Or.inl (List.mem_cons_of_mem c h)
        · exact Or.inr (Or.inl ⟨x, List.mem_cons_of_mem c hx, hn, e⟩)
        · exact Or.inr (Or.inr h)
    · split at hd
      · rename_i hn
        rcases List.mem_cons.1 hd with e | hd
        · exact Or.inr (Or.inl ⟨c, List.mem_cons_self c cs, hn, e⟩)
        · exact Or.inl (List.mem_cons_of_mem c hd)
      · rcases List.mem_cons.1 hd with e | hd
        · exact Or.inr (Or.inr e)
        · exact Or.inl hd

theorem upsert_pairwise (f : treeNode → treeNode) (t : Bytes) (cs : List treeNode)
    (hf : ∀ c, (f c).Name = c.Name) (h : cs.Pairwise nameLt) :
    (upsert f t cs).Pairwise nameLt := by
  induction cs with
  | nil => simp [upsert]
  | cons c cs ih =>
    have hp := List.pairwise_cons.1 h
    simp only [upsert]
    by_cases hlt : bytesCompare c.Name t < 0
    · simp only [hlt, if_true]
      refine List.pairwise_cons.2 ⟨?_, ih hp.2⟩
      intro d hd
      rcases upsert_mem f t cs d hd with h1 | ⟨x, hx, hn, e⟩ | e
      · exact hp.1 d h1
      · have := hp.1 x hx
        unfold nameLt at this ⊢
        rw [e, hf]; exact this
      · unfold nameLt
        rw [e, hf]; exact hlt
    · simp only [hlt, if_false]
      by_cases he : c.Name = t
      · simp only [he, if_true]
        refine List.pairwise_cons.2 ⟨?_, hp.2⟩
        intro d hd
        have := hp.1 d hd
        unfold nameLt at this ⊢
        rw [hf]; exact this
      · simp only [he, if_false]
        have hgt : bytesCompare t c.Name < 0 := by
          have h0 : bytesCompare c.Name t ≠ 0 := fun h0 => he ((bytesCompare_eq_zero _ _).1 h0)
          have := bytesCompare_swap c.Name t
          omega
        refine List.pairwise_cons.2 ⟨?_, h⟩
        intro d hd
        unfold nameLt
        rw [hf]
        rcases List.mem_cons.1 hd with e | hd
        · rw [e]; exact hgt
        · exact bytesCompare_trans _ _ _ hgt (hp.1 d hd)

theorem upsert_all (p : treeNode → Prop) (f : treeNode → treeNode) (t : Bytes)
    (cs : List treeNode) (hcs : ∀ c ∈ cs, p c) (hf : ∀ c ∈ cs, p c → p (f c))
    (hnew : p (f (treeNode.mk t 0 0 []))) : ∀ d ∈ upsert f t cs, p d := by
  intro d hd
  rcases upsert_mem f t cs d hd with h1 | ⟨x, hx, _, e⟩ | e
  · exact hcs d h1
  · rw [e]; exact hf x hx (hcs x hx)
  · rw [e]; exact hnew

/-! ## The insertion loop -/

theorem insertRef_Name (s : List Bytes) (v : Nat) (n : treeNode) :
    (insertRef s v n).Name = n.Name := by
  cases n; cases s <;> simp [insertRef, treeNode.Name]

theorem insertRef_Total (s : List Bytes) (v : Nat) (n : treeNode) :
    (insertRef s v n).Total = (n.Total + v) % u64 := by
  cases n; cases s <;> simp [insertRef, treeNode.Total]

theorem sortedOk_mk (name : Bytes) (total self : Nat) (cs : List treeNode) :
    sortedOk (treeNode.mk name total self cs) = true ↔ cs.Pairwise nameLt := by
  simp [sortedOk, treeNode.ChildrenNodes]

theorem insertLoop_eq_insertRef (a : ArenaWrapper) (s : List Bytes) (v : Nat) (n : treeNode)
    (h : allNodes sortedOk n = true) : insertLoop a s v n = insertRef s v n := by
  induction s generalizing n with
  | nil => cases n; simp [insertLoop, insertRef]
  | cons t rest ih =>
    cases n with
    | mk name total self cs =>
      rw [allNodes_mk, sortedOk_mk] at h
      simp only [insertLoop, insertRef]
      rw [insertA_upsert a _ t cs h.1]
      rw [upsert_congr (insertLoop a rest v) (insertRef rest v) t cs
        (fun c hc => ih c (h.2 c hc)) (ih _ (allNodes_leaf _ _ _ _ (by simp [sortedOk_mk])))]

theorem insertStackLoop_eq_insertRef (s : List Bytes) (v : Nat) (n : treeNode)
    (h : allNodes sortedOk n = true) : insertStackLoop s v n = insertRef s v n := by
  induction s generalizing n with
  | nil => cases n; simp [insertStackLoop, insertRef]
  | cons t rest ih =>
    cases n with
    | mk name total self cs =>
      rw [allNodes_mk, sortedOk_mk] at h
      simp only [insertStackLoop, insertRef]
      rw [insert_upsert _ t cs h.1]
      rw [upsert_congr (insertStackLoop rest v) (insertRef rest v) t cs
        (fun c hc => ih c (h.2 c hc)) (ih _ (allNodes_leaf _ _ _ _ (by simp [sortedOk_mk])))]

theorem insertRef_sorted (s : List Bytes) (v : Nat) (n : treeNode)
    (h : allNodes sortedOk n = true) : allNodes sortedOk (insertRef s v n) = true := by
  induction s generalizing n with
  | nil =>
    cases n
    rw [allNodes_mk, sortedOk_mk] at h
    simp only [insertRef]
    rw [allNodes_mk, sortedOk_mk]
    exact h
  | cons t rest ih =>
    cases n with
    | mk name total self cs =>
      rw [allNodes_mk, sortedOk_mk] at h
      simp only [insertRef]
      rw [allNodes_mk, sortedOk_mk]
      refine ⟨upsert_pairwise _ t cs (fun c => insertRef_Name rest v c) h.1, ?_⟩
      exact upsert_all (fun c => allNodes sortedOk c = true) _ t cs h.2
        (fun c _ hc => ih c hc) (ih _ (allNodes_leaf _ _ _ _ (by simp [sortedOk_mk])))

theorem Total_mk (name : Bytes) (total self : Nat) (cs : List treeNode) :
    (treeNode.mk name total self cs).Total = total := rfl

theorem sumOk_mk (name : Bytes) (total self : Nat) (cs : List treeNode) :
    sumOk (treeNode.mk name total self cs) = true ↔ total = (self + sumTotal cs) % u64 := by
  simp [sumOk, treeNode.ChildrenNodes, treeNode.Total, treeNode.Self]

theorem sumTotal_cons (c : treeNode) (cs : List treeNode) :
    sumTotal (c :: cs) = c.Total + sumTotal cs := by
  simp [sumTotal]

theorem upsert_sumTotal (f : treeNode → treeNode) (t : Bytes) (v : Nat) (cs : List treeNode)
    (hf : ∀ c, (f c).Total = (c.Total + v) % u64) :
    sumTotal (upsert f t cs) % u64 = (sumTotal cs + v) % u64 := by
  induction cs with
  | nil =>
    simp only [upsert, sumTotal_cons, hf, Total_mk]
    simp [sumTotal]
  | cons c cs ih =>
    simp only [upsert]
    split
    · simp only [sumTotal_cons]
      unfold u64 at ih ⊢
      omega
    · split
      · simp only [sumTotal_cons, hf]
        unfold u64
        omega
      · simp only [sumTotal_cons, hf, Total_mk]
        unfold u64
        omega

theorem insertRef_sum (s : List Bytes) (v : Nat) (n : treeNode)
    (h : allNodes sumOk n = true) : allNodes sumOk (insertRef s v n) = true := by
  induction s generalizing n with
  | nil =>
    cases n
    rw [allNodes_mk, sumOk_mk] at h
    simp only [insertRef]
    rw [allNodes_mk, sumOk_mk]
    refine ⟨?_, h.2⟩
    have := h.1
    unfold u64 at this ⊢
    omega
  | cons t rest ih =>
    cases n with
    | mk name total self cs =>
      rw [allNodes_mk, sumOk_mk] at h
      simp only [insertRef]
      rw [allNodes_mk, sumOk_mk]
      constructor
      · have h1 := h.1
        have h2 := upsert_sumTotal (insertRef rest v) t v cs (fun c => insertRef_Total rest v c)
        unfold u64 at h1 h2 ⊢
        omega
      · exact upsert_all (fun c => allNodes sumOk c = true) _ t cs h.2
          (fun c _ hc => ih c hc)
          (ih _ (allNodes_leaf _ _ _ _ (by simp [sumOk_mk, sumTotal])))

/-! ## Sequences of insertions -/

theorem insertAllRef_sorted (n : treeNode) (ops : List (List Bytes × Nat))
    (h : allNodes sortedOk n = true) : allNodes sortedOk (insertAllRef n ops) = true := by
  induction ops generalizing n with
  | nil => exact h
  | cons op ops ih => exact ih _ (insertRef_sorted op.1 op.2 n h)

theorem insertAllRef_sum (n : treeNode) (ops : List (List Bytes × Nat))
    (h : allNodes sumOk n = true) : allNodes sumOk (insertAllRef n ops) = true := by
  induction ops generalizing n with
  | nil => exact h
  | cons op ops ih => exact ih _ (insertRef_sum op.1 op.2 n h)

theorem insertAllA_eq (a : ArenaWrapper) (root : treeNode) (ops : List (List Bytes × Nat))
    (h : allNodes sortedOk root = true) :
    insertAllA { root := root, arena := some a } ops =
      { root := insertAllRef root ops, arena := some a } := by
  induction ops generalizing root with
  | nil => rfl
  | cons op ops ih =>
    have e : insertAllA { root := root, arena := some a } (op :: ops) =
        insertAllA { root := insertLoop a op.1 op.2 root, arena := some a } ops := rfl
    rw [e, insertLoop_eq_insertRef a op.1 op.2 root h, ih _ (insertRef_sorted op.1 op.2 root h)]
    rfl

theorem insertAll_eq (ar : Option ArenaWrapper) (root : treeNode)
    (ops : List (List Bytes × Nat)) (h : allNodes sortedOk root = true) :
    insertAll { root := root, arena := ar } ops =
      { root := insertAllRef root ops, arena := ar } := by
  induction ops generalizing root with
  | nil => rfl
  | cons op ops ih =>
    have e : insertAll { root := root, arena := ar } (op :: ops) =
        insertAll { root := insertStackLoop op.1 op.2 root, arena := ar } ops := rfl
    rw [e, insertStackLoop_eq_insertRef op.1 op.2 root h,
      ih _ (insertRef_sorted op.1 op.2 root h)]
    rfl

theorem empty_sorted (name : Bytes) : allNodes sortedOk (treeNode.mk name 0 0 []) = true :=
  allNodes_leaf _ _ _ _ (by simp [sortedOk_mk])

theorem empty_sum (name : Bytes) : allNodes sumOk (treeNode.mk name 0 0 []) = true :=
  allNodes_leaf _ _ _ _ (by simp [sumOk_mk, sumTotal])

theorem NewA_insertAllA (a : ArenaWrapper) (ops : List (List Bytes × Nat)) :
    (insertAllA (NewA a) ops).root = insertAllRef (treeNode.mk [] 0 0 []) ops := by
  have := insertAllA_eq a (treeNode.mk [] 0 0 []) ops (empty_sorted [])
  unfold NewA newNodeA
  rw [this]

mutual
theorem allNodes_imp (p q : treeNode → Bool) (hpq : ∀ n, p n = true → q n = true) :
    ∀ n : treeNode, allNodes p n = true → allNodes q n = true
  | treeNode.mk name total self cs => by
    intro h
    simp only [allNodes, Bool.and_eq_true] at h ⊢
    exact ⟨hpq _ h.1, allList_imp p q hpq cs h.2⟩
theorem allList_imp (p q : treeNode → Bool) (hpq : ∀ n, p n = true → q n = true) :
    ∀ cs : List treeNode, allList p cs = true → allList q cs = true
  | [] => by intro _; simp [allList]
  | c :: cs => by
    intro h
    simp only [allList, Bool.and_eq_true] at h ⊢
    exact ⟨allNodes_imp p q hpq c h.1, allList_imp p q hpq cs h.2⟩
end

theorem sortedOk_distinctOk (n : treeNode) (h : sortedOk n = true) : distinctOk n = true := by
  unfold sortedOk at h
  unfold distinctOk
  simp only [decide_eq_true_eq] at h ⊢
  unfold List.Nodup
  rw [List.pairwise_map]
  refine h.imp ?_
  intro c d hcd e
  have := (bytesCompare_eq_zero c.Name d.Name).2 e
  unfold nameLt at hcd
  omega

/-! ## Nodes along a path -/

theorem Name_mk (name : Bytes) (total self : Nat) (cs : List treeNode) :
    (treeNode.mk name total self cs).Name = name := rfl

theorem Self_mk (name : Bytes) (total self : Nat) (cs : List treeNode) :
    (treeNode.mk name total self cs).Self = self := rfl

theorem findChild_cons (c : treeNode) (cs : List treeNode) (q : Bytes) :
    findChild (c :: cs) q = if c.Name = q then some c else findChild cs q := by
  unfold findChild bytesEqual
  by_cases h : c.Name = q <;> simp [List.find?, h]

theorem findChild_mem (cs : List treeNode) (q : Bytes) (c : treeNode)
    (h : findChild cs q = some c) : c ∈ cs :=
  List.mem_of_find?_eq_some h

theorem findChild_none_of_gt (cs : List treeNode) (t : Bytes)
    (h : ∀ d ∈ cs, d.Name ≠ t) : findChild cs t = none := by
  unfold findChild bytesEqual
  rw [List.find?_eq_none]
  intro x hx
  simp [h x hx]

theorem findChild_upsert (f : treeNode → treeNode) (t q : Bytes) (cs : List treeNode)
    (hf : ∀ c, (f c).Name = c.Name) (h : cs.Pairwise nameLt) :
    findChild (upsert f t cs) q =
      if q = t then some (f ((findChild cs t).getD (treeNode.mk t 0 0 [])))
      else findChild cs q := by
  induction cs with
  | nil =>
    simp only [upsert, findChild_cons, hf, Name_mk]
    by_cases e : q = t
    · simp [e, findChild]
    · have e' : ¬ t = q := fun e' => e e'.symm
      simp [e, e', findChild]
  | cons c cs ih =>
    have ih := ih (List.pairwise_cons.1 h).2
    simp only [upsert]
    by_cases hlt : bytesCompare c.Name t < 0
    · have hne : c.Name ≠ t := by
        intro e
        have := (bytesCompare_eq_zero c.Name t).2 e
        omega
      simp only [hlt, if_true, findChild_cons, ih, hne, if_false]
      by_cases hq : c.Name = q
      · have : ¬ q = t := by rw [← hq]; exact hne
        simp [hq, this]
      · simp [hq]
    · simp only [hlt, if_false]
      by_cases he : c.Name = t
      · simp only [he, if_true, findChild_cons, hf, Option.getD_some]
        by_cases hq : q = t
        · simp [hq]
        · have : ¬ t = q := fun e' => hq e'.symm
          simp [hq, this]
      · have htail := nameLt_not_ge_tail c cs t h hlt
        have hnone : findChild cs t = none :=
          findChild_none_of_gt cs t (fun d hd => (htail d hd).2)
        simp only [he, if_false, findChild_cons, hf, hnone, Option.getD_none, Name_mk]
        by_cases hq : q = t
        · simp [hq]
        · have : ¬ t = q := fun e' => hq e'.symm
          simp [hq, this]

theorem statAt_nil (n : treeNode) : statAt n [] = some (n.Total, n.Self) := by
  cases n; simp [statAt, nodeAt]

theorem statAt_cons (name : Bytes) (total self : Nat) (cs : List treeNode) (q : Bytes)
    (p : List Bytes) :
    statAt (treeNode.mk name total self cs) (q :: p) =
      (findChild cs q).bind (fun c => statAt c p) := by
  unfold statAt
  simp only [nodeAt]
  cases findChild cs q <;> simp

theorem statAt_leaf_getD (name : Bytes) (p : List Bytes) :
    (statAt (treeNode.mk name 0 0 []) p).getD (0, 0) = (0, 0) := by
  cases p with
  | nil => simp [statAt_nil, Total_mk, Self_mk]
  | cons q p => simp [statAt_cons, findChild]

theorem statAt_leaf_cons (name : Bytes) (q : Bytes) (p : List Bytes) :
    statAt (treeNode.mk name 0 0 []) (q :: p) = none := by
  simp [statAt_cons, findChild]

/-- The effect of one insertion on the pair (`Total`, `Self`) found along any path. -/
theorem statAt_insertRef (s : List Bytes) (v : Nat) (n : treeNode) (p : List Bytes)
    (h : allNodes sortedOk n = true) :
    statAt (insertRef s v n) p =
      if p <+: s then
        some ((((statAt n p).getD (0, 0)).1 + v) % u64,
          if p = s then (((statAt n p).getD (0, 0)).2 + v) % u64
          else ((statAt n p).getD (0, 0)).2)
      else statAt n p := by
  induction s generalizing n p with
  | nil =>
    cases n with
    | mk name total self cs =>
      cases p with
      | nil => simp [insertRef, statAt_nil, Total_mk, Self_mk]
      | cons q p => simp [insertRef, statAt_cons]
  | cons t rest ih =>
    cases n with
    | mk name total self cs =>
      rw [allNodes_mk, sortedOk_mk] at h
      cases p with
      | nil => simp [insertRef, statAt_nil, Total_mk, Self_mk]
      | cons q p =>
        simp only [insertRef, statAt_cons, List.cons_prefix_cons]
        rw [findChild_upsert _ t q cs (fun c => insertRef_Name rest v c) h.1]
        by_cases hq : q = t
        · subst hq
          simp only [if_true, Option.some_bind, true_and, List.cons.injEq]
          cases hfc : findChild cs q with
          | some c =>
            have hc := h.2 c (findChild_mem cs q c hfc)
            simp only [Option.getD_some, Option.some_bind]
            exact ih c p hc
          | none =>
            simp only [Option.getD_none, Option.none_bind]
            rw [ih _ p (empty_sorted q)]
            rw [statAt_leaf_getD]
            by_cases hp : p <+: rest
            · simp [hp]
            · have : p ≠ [] := by
                intro e; apply hp; rw [e]; exact List.nil_prefix
              obtain ⟨q', p', e⟩ := List.exists_cons_of_ne_nil this
              rw [e] at hp ⊢
              simp [hp, statAt_leaf_cons]
        · simp [hq]

/-! ## The weights met along a path -/

theorem weightSum_nil (sel : List Bytes → Bool) : weightSum sel [] = 0 := by
  simp [weightSum]

theorem weightSum_snoc (sel : List Bytes → Bool) (ops : List (List Bytes × Nat))
    (s : List Bytes) (v : Nat) :
    weightSum sel (ops ++ [(s, v)]) =
      if sel s = true then (weightSum sel ops + v) % u64 else weightSum sel ops := by
  unfold weightSum
  by_cases h : sel s = true
  · simp only [List.filter_append, List.filter_cons, h, if_true, List.filter_nil, List.map_append,
      List.map_cons, List.map_nil, List.sum_append, List.sum_cons, List.sum_nil, Nat.add_zero]
    unfold u64
    omega
  · simp [List.filter_append, List.filter_cons, h]

theorem weightSum_eq_zero (sel : List Bytes → Bool) (ops : List (List Bytes × Nat))
    (h : ∀ op ∈ ops, sel op.1 = false) : weightSum sel ops = 0 := by
  unfold weightSum
  have : ops.filter (fun op => sel op.1) = [] := by
    rw [List.filter_eq_nil_iff]
    intro op hop
    simp [h op hop]
  simp [this]

theorem insertAllRef_snoc (n : treeNode) (ops : List (List Bytes × Nat)) (s : List Bytes)
    (v : Nat) : insertAllRef n (ops ++ [(s, v)]) = insertRef s v (insertAllRef n ops) := by
  simp [insertAllRef, List.foldl_append]

/-- After a sequence of insertions into the empty tree, the pair (`Total`, `Self`) found along
a path is the pair of the weight sums, and there is a node only along the empty path and the
prefixes of the inserted stacks. -/
theorem statAt_insertAllRef (ops : List (List Bytes × Nat)) (p : List Bytes) :
    ((p = [] ∨ ∃ op ∈ ops, p <+: op.1) →
        statAt (insertAllRef (treeNode.mk [] 0 0 []) ops) p =
          some (weightSum (fun s => decide (p <+: s)) ops,
            weightSum (fun s => decide (s = p)) ops)) ∧
      (¬ (p = [] ∨ ∃ op ∈ ops, p <+: op.1) →
        statAt (insertAllRef (treeNode.mk [] 0 0 []) ops) p = none) := by
  induction ops using List.reverseRecOn with
  | nil =>
    constructor
    · intro h
      rcases h with e | ⟨op, hop, _⟩
      · subst e
        simp [insertAllRef, statAt_nil, Total_mk, Self_mk, weightSum_nil]
      · simp at hop
    · intro h
      have hp : p ≠ [] := fun e => h (Or.inl e)
      obtain ⟨q, p', e⟩ := List.exists_cons_of_ne_nil hp
      rw [e]
      exact statAt_leaf_cons [] q p'
  | append_singleton ops op ih =>
    obtain ⟨s, v⟩ := op
    have hsorted := insertAllRef_sorted (treeNode.mk [] 0 0 []) ops (empty_sorted [])
    have hgetD : (statAt (insertAllRef (treeNode.mk [] 0 0 []) ops) p).getD (0, 0) =
        (weightSum (fun s => decide (p <+: s)) ops, weightSum (fun s => decide (s = p)) ops) := by
      by_cases hc : p = [] ∨ ∃ op ∈ ops, p <+: op.1
      · rw [ih.1 hc]; rfl
      · rw [ih.2 hc]
        have hno : ∀ op ∈ ops, ¬ p <+: op.1 := fun op hop hpre => hc (Or.inr ⟨op, hop, hpre⟩)
        rw [weightSum_eq_zero _ ops (fun op hop => by simpa using hno op hop)]
        rw [weightSum_eq_zero _ ops (fun op hop => by
          simp only [decide_eq_false_iff_not]
          intro e
          exact hno op hop (by rw [e]))]
        rfl
    rw [insertAllRef_snoc, statAt_insertRef s v _ p hsorted, hgetD]
    simp only [weightSum_snoc, decide_eq_true_eq]
    by_cases hpre : p <+: s
    · constructor
      · intro _
        simp only [hpre, if_true]
        by_cases e : p = s
        · subst e
          simp
        · have e' : ¬ s = p := fun e' => e e'.symm
          simp [e, e']
      · intro hc
        exact absurd (Or.inr ⟨(s, v), by simp, hpre⟩) hc
    · have e' : ¬ s = p := by
        intro e; apply hpre; rw [e]
      simp only [hpre, if_false, e']
      constructor
      · intro hc
        apply ih.1
        rcases hc with e | ⟨op, hop, hp⟩
        · exact Or.inl e
        · rcases List.mem_append.1 hop with h1 | h1
          · exact Or.inr ⟨op, h1, hp⟩
          · simp only [List.mem_singleton] at h1
            subst h1
            exact absurd hp hpre
      · intro hc
        apply ih.2
        intro hc'
        apply hc
        rcases hc' with e | ⟨op, hop, hp⟩
        · exact Or.inl e
        · exact Or.inr ⟨op, List.mem_append_left _ hop, hp⟩

/-! ## Insertions commute -/

theorem bytesCompare_lt_ne {x y : Bytes} (h : bytesCompare x y < 0) : x ≠ y := by
  intro e
  have := (bytesCompare_eq_zero x y).2 e
  omega

theorem bytesCompare_lt_asymm {x y : Bytes} (h : bytesCompare x y < 0) :
    ¬ bytesCompare y x < 0 := by
  have := bytesCompare_swap x y
  omega

theorem bytesCompare_gt_of {x y : Bytes} (h : ¬ bytesCompare x y < 0) (hne : x ≠ y) :
    bytesCompare y x < 0 := by
  have h0 : bytesCompare x y ≠ 0 := fun h0 => hne ((bytesCompare_eq_zero _ _).1 h0)
  have := bytesCompare_swap x y
  omega

theorem upsert_upsert_same (f g : treeNode → treeNode) (a : Bytes) (cs : List treeNode)
    (hf : ∀ c, (f c).Name = c.Name) :
    upsert g a (upsert f a cs) = upsert (fun c => g (f c)) a cs := by
  have hirr : ¬ bytesCompare a a < 0 := by
    have := (bytesCompare_eq_zero a a).2 rfl
    omega
  induction cs with
  | nil => simp [upsert, hf, Name_mk, hirr]
  | cons c cs ih =>
    by_cases hlt : bytesCompare c.Name a < 0
    · simp [upsert, hlt, ih]
    · by_cases he : c.Name = a
      · simp [upsert, hlt, he, hf, hirr]
      · simp [upsert, hlt, he, hf, hirr, Name_mk]

theorem upsert_upsert_ne (f g : treeNode → treeNode) (a b : Bytes) (cs : List treeNode)
    (hf : ∀ c, (f c).Name = c.Name) (hg : ∀ c, (g c).Name = c.Name) (hab : a ≠ b) :
    upsert g b (upsert f a cs) = upsert f a (upsert g b cs) := by
  have hba : b ≠ a := fun e => hab e.symm
  induction cs with
  | nil =>
    by_cases h1 : bytesCompare a b < 0
    · have h2 := bytesCompare_lt_asymm h1
      simp [upsert, hf, hg, Name_mk, h1, h2, hab, hba]
    · have h2 := bytesCompare_gt_of h1 hab
      simp [upsert, hf, hg, Name_mk, h1, h2, hab, hba]
  | cons c cs ih =>
    by_cases hca : bytesCompare c.Name a < 0
    · by_cases hcb : bytesCompare c.Name b < 0
      · simp [upsert, hca, hcb, ih]
      · by_cases heb : c.Name = b
        · subst heb
          simp [upsert, hca, hcb, hg]
        · have hbc := bytesCompare_gt_of hcb heb
          have hba' := bytesCompare_trans _ _ _ hbc hca
          simp [upsert, hca, hcb, heb, hg, Name_mk, hba']
    · by_cases hea : c.Name = a
      · subst hea
        by_cases hcb : bytesCompare c.Name b < 0
        · simp [upsert, hca, hcb, hf]
        · have hbc := bytesCompare_gt_of hcb hab
          simp [upsert, hca, hcb, hab, hf, hg, Name_mk, hbc]
      · have hac := bytesCompare_gt_of hca hea
        by_cases hcb : bytesCompare c.Name b < 0
        · have hab' := bytesCompare_trans _ _ _ hac hcb
          simp [upsert, hca, hcb, hea, hf, hg, Name_mk, hab']
        · by_cases heb : c.Name = b
          · subst heb
            simp [upsert, hca, hcb, hea, hf, hg, Name_mk, hac]
          · have hbc := bytesCompare_gt_of hcb heb
            by_cases h1 : bytesCompare a b < 0
            · have h2 := bytesCompare_lt_asymm h1
              simp [upsert, hca, hcb, hea, heb, hf, hg, Name_mk, h1, h2, hab, hba]
            · have h2 := bytesCompare_gt_of h1 hab
              simp [upsert, hca, hcb, hea, heb, hf, hg, Name_mk, h1, h2, hab, hba]

theorem insertRef_comm (s1 : List Bytes) (v1 : Nat) (s2 : List Bytes) (v2 : Nat)
    (n : treeNode) :
    insertRef s2 v2 (insertRef s1 v1 n) = insertRef s1 v1 (insertRef s2 v2 n) := by
  induction s1 generalizing s2 n with
  | nil =>
    cases n with
    | mk name total self cs =>
      cases s2 with
      | nil =>
        simp only [insertRef, treeNode.mk.injEq, true_and, and_true]
        unfold u64
        constructor <;> omega
      | cons b r2 =>
        simp only [insertRef, treeNode.mk.injEq, true_and, and_true]
        unfold u64
        omega
  | cons a r1 ih =>
    cases n with
    | mk name total self cs =>
      cases s2 with
      | nil =>
        simp only [insertRef, treeNode.mk.injEq, true_and, and_true]
        unfold u64
        omega
      | cons b r2 =>
        simp only [insertRef, treeNode.mk.injEq, true_and]
        constructor
        · unfold u64; omega
        · by_cases hab : a = b
          · subst hab
            rw [upsert_upsert_same _ _ a cs (fun c => insertRef_Name r1 v1 c),
              upsert_upsert_same _ _ a cs (fun c => insertRef_Name r2 v2 c)]
            exact upsert_congr _ _ a cs (fun c _ => ih r2 c) (ih r2 _)
          · exact upsert_upsert_ne _ _ a b cs (fun c => insertRef_Name r1 v1 c)
              (fun c => insertRef_Name r2 v2 c) hab

theorem InsertStackA_root (t : Tree) (s : List Bytes) (v : Nat)
    (h : allNodes sortedOk t.root = true) :
    InsertStackA t s v = { root := insertRef s v t.root, arena := t.arena } := by
  obtain ⟨root, ar⟩ := t
  cases ar with
  | none =>
    simp only [InsertStackA, InsertStack]
    rw [insertStackLoop_eq_insertRef s v root h]
  | some a =>
    simp only [InsertStackA]
    rw [insertLoop_eq_insertRef a s v root h]

/-! ## Go maps -/

namespace GoMap

variable {K V : Type} [DecidableEq K]

theorem get?_delete_self (m : GoMap K V) (k : K) : get? (delete m k) k = none := by
  induction m with
  | nil => rfl
  | cons kv m ih =>
    obtain ⟨k', v⟩ := kv
    by_cases h : k' = k
    · simp only [delete, List.filter, h, decide_True, Bool.not_true] at ih ⊢
      exact ih
    · simp only [delete, List.filter, h, decide_False, Bool.not_false, get?, if_false] at ih ⊢
      exact ih

theorem get?_delete_ne (m : GoMap K V) (k k1 : K) (hne : k1 ≠ k) :
    get? (delete m k) k1 = get? m k1 := by
  induction m with
  | nil => rfl
  | cons kv m ih =>
    obtain ⟨k', v⟩ := kv
    by_cases h : k' = k
    · subst h
      have h1 : ¬ k' = k1 := fun e => hne e.symm
      simp only [delete, List.filter, decide_True, Bool.not_true, get?, h1, if_false] at ih ⊢
      exact ih
    · simp only [delete, List.filter, h, decide_False, Bool.not_false, get?] at ih ⊢
      rw [ih]

theorem get?_set_self (m : GoMap K V) (k : K) (v : V) : get? (set m k v) k = some v := by
  simp [set, get?]

theorem get?_set_ne (m : GoMap K V) (k k1 : K) (v : V) (hne : k1 ≠ k) :
    get? (set m k v) k1 = get? m k1 := by
  have h1 : ¬ k = k1 := fun e => hne e.symm
  simp only [set, get?, h1, if_false]
  exact get?_delete_ne m k k1 hne

theorem len_eq_zero (m : GoMap K V) : len m = 0 ↔ m = [] := by
  unfold len
  rw [List.length_eq_zero, List.dedup_eq_nil, List.map_eq_nil_iff]

theorem get?_nil (k : K) : get? ([] : GoMap K V) k = none := rfl

theorem eq_nil_of_get? (m : GoMap K V) (h : ∀ k, get? m k = none) : m = [] := by
  cases m with
  | nil => rfl
  | cons kv m =>
    obtain ⟨k, v⟩ := kv
    have := h k
    simp [get?] at this

end GoMap

/-! ## Claims on the call tree -/

/-- C1: in every tree reached from the empty tree of `NewA` by a finite sequence of
`InsertStackA` calls, whatever the stacks and the weights, every node satisfies
`Total = Self + Σ children[i].Total` in `uint64` arithmetic. -/
theorem total_eq_self_add_children (a : ArenaWrapper) (ops : List (List Bytes × Nat)) :
    allNodes sumOk (insertAllA (NewA a) ops).root = true := by
  rw [NewA_insertAllA]
  exact insertAllRef_sum _ ops (empty_sum [])

/-- C2: in every tree reached from the empty tree of `NewA` by a finite sequence of
`InsertStackA` calls, the children of every node are strictly ascending by name for
`bytes.Compare`, and so no two children of a node have the same name. -/
theorem children_strictly_ascending (a : ArenaWrapper) (ops : List (List Bytes × Nat)) :
    allNodes sortedOk (insertAllA (NewA a) ops).root = true ∧
      allNodes distinctOk (insertAllA (NewA a) ops).root = true := by
  rw [NewA_insertAllA]
  have h := insertAllRef_sorted _ ops (empty_sorted [])
  exact ⟨h, allNodes_imp sortedOk distinctOk sortedOk_distinctOk _ h⟩

/-- C3, as stated, fails: after the empty sequence of insertions the root is a node at the
empty path, and the empty path is a prefix of no inserted stack, none having been inserted. -/
theorem node_iff_prefix_counterexample :
    (nodeAt (insertAllA (NewA { Arena := 0 }) []).root []).isSome = true ∧
      ¬ ∃ op ∈ ([] : List (List Bytes × Nat)), ([] : List Bytes) <+: op.1 := by
  constructor
  · rfl
  · simp

/-- C3, amended: after any finite sequence of (stack, weight) pairs inserted with
`InsertStackA` into the empty tree of `NewA`, there is a node at path `p` exactly when `p` is
empty (the root) or a prefix of an inserted stack; the `Total` of that node is the sum of the
weights of the inserted stacks that `p` is a prefix of, and its `Self` the sum of the weights
of the inserted stacks equal to `p`, both in `uint64` arithmetic. -/
theorem node_stats_after_inserts (a : ArenaWrapper) (ops : List (List Bytes × Nat))
    (p : List Bytes) :
    ((nodeAt (insertAllA (NewA a) ops).root p).isSome = true ↔
        (p = [] ∨ ∃ op ∈ ops, p <+: op.1)) ∧
      statAt (insertAllA (NewA a) ops).root p =
        if p = [] ∨ ∃ op ∈ ops, p <+: op.1 then
          some (weightSum (fun s => decide (p <+: s)) ops,
            weightSum (fun s => decide (s = p)) ops)
        else none := by
  rw [NewA_insertAllA]
  have h := statAt_insertAllRef ops p
  by_cases hc : p = [] ∨ ∃ op ∈ ops, p <+: op.1
  · have h1 := h.1 hc
    rw [if_pos hc]
    refine ⟨?_, h1⟩
    unfold statAt at h1
    cases hn : nodeAt (insertAllRef (treeNode.mk [] 0 0 []) ops) p with
    | none => rw [hn] at h1; simp at h1
    | some n => exact ⟨fun _ => hc, fun _ => rfl⟩
  · have h2 := h.2 hc
    rw [if_neg hc]
    refine ⟨?_, h2⟩
    unfold statAt at h2
    cases hn : nodeAt (insertAllRef (treeNode.mk [] 0 0 []) ops) p with
    | none => exact ⟨fun hs => by simp at hs, fun hs => absurd hs hc⟩
    | some n => rw [hn] at h2; simp at h2

/-- C4: on every tree whose nodes all have strictly ascending children, inserting two
(stack, weight) pairs with `InsertStackA` in one order or the other gives the same tree. -/
theorem insert_order_irrelevant (t : Tree) (h : allNodes sortedOk t.root = true)
    (s1 : List Bytes) (v1 : Nat) (s2 : List Bytes) (v2 : Nat) :
    InsertStackA (InsertStackA t s1 v1) s2 v2 = InsertStackA (InsertStackA t s2 v2) s1 v1 := by
  rw [InsertStackA_root t s1 v1 h, InsertStackA_root t s2 v2 h]
  rw [InsertStackA_root _ s2 v2 (insertRef_sorted s1 v1 _ h),
    InsertStackA_root _ s1 v1 (insertRef_sorted s2 v2 _ h)]
  simp only [insertRef_comm s1 v1 s2 v2 t.root]

/-- The example of C4: the stacks `["a","b"]` with weight 3 and `["a","c"]` with weight 2,
inserted into the empty tree in either order, give the root with `Total = 5`, `Self = 0`, the
node `"a"` with `Total = 5`, `Self = 0`, `"b"` with `Total = 3`, `Self = 3` and `"c"` with
`Total = 2`, `Self = 2`. -/
theorem insert_order_irrelevant_witness :
    allNodes sortedOk (NewA { Arena := 0 }).root = true ∧
      InsertStackA (InsertStackA (NewA { Arena := 0 }) [[97], [98]] 3) [[97], [99]] 2 =
        InsertStackA (InsertStackA (NewA { Arena := 0 }) [[97], [99]] 2) [[97], [98]] 3 ∧
      (InsertStackA (InsertStackA (NewA { Arena := 0 }) [[97], [98]] 3) [[97], [99]] 2).root =
        treeNode.mk [] 5 0
          [treeNode.mk [97] 5 0 [treeNode.mk [98] 3 3 [], treeNode.mk [99] 2 2 []]] :=
  ⟨rfl, insert_order_irrelevant (NewA { Arena := 0 }) rfl [[97], [98]] 3 [[97], [99]] 2, rfl⟩

/-- C5: for every finite sequence of (stack, weight) pairs, inserting it with `InsertStack`
into the heap-backed empty tree and with `InsertStackA` into the empty tree of `NewA` gives
equal roots (same shape, names, `Total` and `Self` everywhere); and on a tree without arena
`InsertStackA` is `InsertStack`. -/
theorem heap_arena_equivalent (a : ArenaWrapper) (ops : List (List Bytes × Nat)) :
    (insertAll New ops).root = (insertAllA (NewA a) ops).root ∧
      ∀ (root : treeNode) (s : List Bytes) (v : Nat),
        InsertStackA { root := root, arena := none } s v =
          InsertStack { root := root, arena := none } s v := by
  constructor
  · rw [NewA_insertAllA]
    have := insertAll_eq none (treeNode.mk [] 0 0 []) ops (empty_sorted [])
    unfold New newNode
    rw [this]
  · intro root s v
    rfl

/-! ## Claims on the labels cache -/

/-- C6: a second `GetOrCreateTree` with the same sample type and a label set of the same hash
(the label set `L` of the first call itself, or any label set built apart with the content of
`L`) returns the entry of the first call and leaves the cache as the first call left it. -/
theorem GetOrCreateTree_idempotent {T : Type} (hash : Labels → Nat) (st : CacheState T)
    (sampleType : Int) (l l' : Labels) (hl : hash l' = hash l) :
    GetOrCreateTree hash (GetOrCreateTree hash st sampleType l).2 sampleType l' =
      ((GetOrCreateTree hash st sampleType l).1, (GetOrCreateTree hash st sampleType l).2) := by
  unfold GetOrCreateTree
  cases hb : st.c.get? sampleType with
  | none =>
    simp only [GoMap.get?_set_self, hl]
  | some p =>
    simp only
    cases hp : p.get? (hash l) with
    | some e =>
      simp only [hb, hl, hp]
    | none =>
      simp only [GoMap.get?_set_self, hl]

/-- The example of C6: on the empty cache, a call with a label set and a call with a copy of
it return the same entry, and the second call changes nothing. -/
theorem GetOrCreateTree_idempotent_witness :
    exampleHash (CopyLabels exampleLabels) = exampleHash exampleLabels ∧
      GetOrCreateTree exampleHash
          (GetOrCreateTree exampleHash ({ heap := [], c := [] } : CacheState Unit) 1
            exampleLabels).2 1 (CopyLabels exampleLabels) =
        ((GetOrCreateTree exampleHash ({ heap := [], c := [] } : CacheState Unit) 1
            exampleLabels).1,
          (GetOrCreateTree exampleHash ({ heap := [], c := [] } : CacheState Unit) 1
            exampleLabels).2) :=
  ⟨rfl, GetOrCreateTree_idempotent exampleHash { heap := [], c := [] } 1 exampleLabels
    (CopyLabels exampleLabels) rfl⟩

/-- C7: `GetOrCreateTreeByHash` called with the hash of the label set is `GetOrCreateTree`:
the same entry is returned and the same cache and entries are left behind, on a hit and on a
miss. -/
theorem GetOrCreateTreeByHash_eq_GetOrCreateTree {T : Type} (hash : Labels → Nat)
    (st : CacheState T) (sampleType : Int) (l : Labels) :
    GetOrCreateTreeByHash st sampleType l (hash l) = GetOrCreateTree hash st sampleType l := by
  unfold GetOrCreateTreeByHash GetOrCreateTree
  cases st.c.get? sampleType with
  | none => rfl
  | some p => rfl

theorem Get_of_bucket_none {T : Type} (st : CacheState T) (sampleType : Int) (h : Nat)
    (hb : st.c.get? sampleType = none) : Get st sampleType h = ((none, false), st) := by
  unfold Get
  rw [hb]

theorem Get_of_key_none {T : Type} (st : CacheState T) (sampleType : Int) (h : Nat)
    (p : GoMap Nat EntryRef) (hb : st.c.get? sampleType = some p) (hp : p.get? h = none) :
    Get st sampleType h = ((none, false), st) := by
  unfold Get
  rw [hb]
  simp only [hp]

theorem Get_of_key_some {T : Type} (st : CacheState T) (sampleType : Int) (h : Nat)
    (p : GoMap Nat EntryRef) (e : EntryRef) (hb : st.c.get? sampleType = some p)
    (hp : p.get? h = some e) : Get st sampleType h = ((some e, true), st) := by
  unfold Get
  rw [hb]
  simp only [hp]

/-- C8: `Get` leaves the cache as it is; it returns `(e, true)` exactly when the bucket of the
sample type exists and maps the hash to `e`, and `(nil, false)` exactly when there is no such
bucket or no such key in it; after `GetOrCreateTreeByHash` returned `e`, `Get` with the same
sample type and hash returns `(e, true)`. -/
theorem Get_pure_lookup {T : Type} (st : CacheState T) (sampleType : Int) (h : Nat) :
    (Get st sampleType h).2 = st ∧
      (∀ e, (Get st sampleType h).1 = (some e, true) ↔
        ∃ p, st.c.get? sampleType = some p ∧ p.get? h = some e) ∧
      ((Get st sampleType h).1 = (none, false) ↔
        ¬ ∃ p e, st.c.get? sampleType = some p ∧ p.get? h = some e) ∧
      ∀ l : Labels,
        (Get (GetOrCreateTreeByHash st sampleType l h).2 sampleType h).1 =
          (some (GetOrCreateTreeByHash st sampleType l h).1, true) := by
  refine ⟨?_, ?_, ?_, ?_⟩
  · cases hb : st.c.get? sampleType with
    | none => rw [Get_of_bucket_none st sampleType h hb]
    | some p =>
      cases hp : p.get? h with
      | none => rw [Get_of_key_none st sampleType h p hb hp]
      | some e => rw [Get_of_key_some st sampleType h p e hb hp]
  · intro e
    cases hb : st.c.get? sampleType with
    | none => rw [Get_of_bucket_none st sampleType h hb]; simp
    | some p =>
      cases hp : p.get? h with
      | none => rw [Get_of_key_none st sampleType h p hb hp]; simp [hp]
      | some e1 => rw [Get_of_key_some st sampleType h p e1 hb hp]; simp [hp]
  · cases hb : st.c.get? sampleType with
    | none => rw [Get_of_bucket_none st sampleType h hb]; simp
    | some p =>
      cases hp : p.get? h with
      | none => rw [Get_of_key_none st sampleType h p hb hp]; simp [hp]
      | some e1 => rw [Get_of_key_some st sampleType h p e1 hb hp]; simp [hp]
  · intro l
    unfold GetOrCreateTreeByHash
    cases hb : st.c.get? sampleType with
    | none =>
      simp only
      rw [Get_of_key_some _ sampleType h _ _ (GoMap.get?_set_self _ _ _)
        (GoMap.get?_set_self _ _ _)]
    | some p =>
      simp only
      cases hp : p.get? h with
      | some e =>
        simp only
        rw [Get_of_key_some st sampleType h p e hb hp]
      | none =>
        simp only
        rw [Get_of_key_some _ sampleType h _ _ (GoMap.get?_set_self _ _ _)
          (GoMap.get?_set_self _ _ _)]

theorem Get_fst {T : Type} (st : CacheState T) (sampleType : Int) (h : Nat) :
    (Get st sampleType h).1 =
      match lookupEntry st.c sampleType h with
      | some e => (some e, true)
      | none => (none, false) := by
  unfold lookupEntry
  cases hb : st.c.get? sampleType with
  | none => rw [Get_of_bucket_none st sampleType h hb]; rfl
  | some p =>
    cases hp : p.get? h with
    | none => rw [Get_of_key_none st sampleType h p hb hp]; simp [hp]
    | some e => rw [Get_of_key_some st sampleType h p e hb hp]; simp [hp]

theorem Get_fst_congr {T : Type} (st st' : CacheState T) (s : Int) (h : Nat)
    (hl : lookupEntry st'.c s h = lookupEntry st.c s h) :
    (Get st' s h).1 = (Get st s h).1 := by
  rw [Get_fst, Get_fst, hl]

theorem lookupEntry_set_ne_bucket (c : LabelsCache) (s s' : Int) (p : GoMap Nat EntryRef)
    (h : Nat) (hne : s' ≠ s) : lookupEntry (c.set s p) s' h = lookupEntry c s' h := by
  unfold lookupEntry
  rw [GoMap.get?_set_ne c s s' p hne]

theorem lookupEntry_set_self (c : LabelsCache) (s : Int) (p : GoMap Nat EntryRef) (h : Nat) :
    lookupEntry (c.set s p) s h = p.get? h := by
  unfold lookupEntry
  rw [GoMap.get?_set_self]
  rfl

theorem lookupEntry_delete_ne_bucket (c : LabelsCache) (s s' : Int) (h : Nat)
    (hne : s' ≠ s) : lookupEntry (c.delete s) s' h = lookupEntry c s' h := by
  unfold lookupEntry
  rw [GoMap.get?_delete_ne c s s' hne]

theorem lookupEntry_delete_self (c : LabelsCache) (s : Int) (h : Nat) :
    lookupEntry (c.delete s) s h = none := by
  unfold lookupEntry
  rw [GoMap.get?_delete_self]
  rfl

theorem ne_of_pair_ne {s s' : Int} {h h' : Nat} (hne : (s', h') ≠ (s, h)) (hs : s' = s) :
    h' ≠ h := by
  intro e
  exact hne (by rw [hs, e])

theorem get?_storeBucket_ne (c : LabelsCache) (s s' : Int) (hne : s' ≠ s) :
    GoMap.get? (storeBucket c s) s' = GoMap.get? c s' := by
  unfold storeBucket
  cases c.get? s with
  | none => exact GoMap.get?_set_ne c s s' [] hne
  | some p => rfl

theorem lookupEntry_storeBucket_ne (c : LabelsCache) (s s' : Int) (h : Nat) (hne : s' ≠ s) :
    lookupEntry (storeBucket c s) s' h = lookupEntry c s' h := by
  unfold lookupEntry
  rw [get?_storeBucket_ne c s s' hne]

/-- C9: `Put` with an entry `e` returns, allocates nothing, and leaves the cache that maps
(sample type, hash of the labels of `e`) to `e`, whatever was there before: `Get` at that key
returns `(e, true)`, every lookup at another (sample type, hash) is as before, and the buckets
are those of before together with the one of the sample type. -/
theorem Put_upsert {T : Type} (hash : Labels → Nat) (st : CacheState T) (sampleType : Int)
    (e : EntryRef) (entry : LabelsCacheEntry T) (he : st.heap.get? e = some entry) :
    ∃ st', Put hash st sampleType e = Outcome.returned st' ∧ st'.heap = st.heap ∧
      (Get st' sampleType (hash entry.Labels)).1 = (some e, true) ∧
      (∀ s' h', (s', h') ≠ (sampleType, hash entry.Labels) →
        (Get st' s' h').1 = (Get st s' h').1) ∧
      ∀ s', hasBucket st' s' = (decide (s' = sampleType) || hasBucket st s') := by
  unfold Put
  simp only [he]
  refine ⟨_, rfl, rfl, ?_, ?_, ?_⟩
  · rw [Get_fst]
    simp only [lookupEntry_set_self, GoMap.get?_set_self]
  · intro s' h' hne
    apply Get_fst_congr
    by_cases hs : s' = sampleType
    · subst hs
      have hh := ne_of_pair_ne hne rfl
      simp only [lookupEntry_set_self]
      rw [GoMap.get?_set_ne _ _ _ _ hh]
      unfold lookupEntry
      cases st.c.get? s' with
      | none => rfl
      | some p => rfl
    · rw [lookupEntry_set_ne_bucket _ _ _ _ _ hs]
      exact lookupEntry_storeBucket_ne _ _ _ _ hs
  · intro s'
    unfold hasBucket
    by_cases hs : s' = sampleType
    · subst hs
      simp [GoMap.get?_set_self]
    · simp only [GoMap.get?_set_ne _ _ _ _ hs, get?_storeBucket_ne _ _ _ hs, hs, decide_False,
        Bool.false_or]

/-- The example of C9: in a cache holding entry `0` under (1, 5), whose labels have hash 1,
`Put` of entry `0` for sample type 1 maps (1, 1) to it and keeps (1, 5). -/
theorem Put_upsert_witness :
    exampleState.heap.get? 0 = some { Labels := exampleLabels, Value := none } ∧
      ∃ st', Put exampleHash exampleState 1 0 = Outcome.returned st' ∧
        (Get st' 1 1).1 = (some 0, true) ∧ (Get st' 1 5).1 = (some 0, true) := by
  refine ⟨rfl, ?_⟩
  obtain ⟨st', h1, _, h3, h4, _⟩ := Put_upsert exampleHash exampleState 1 0 _ rfl
  refine ⟨st', h1, h3, ?_⟩
  rw [h4 1 5 (by decide)]
  rfl

theorem GoMap.exists_key_of_ne_nil {K V : Type} [DecidableEq K] (m : GoMap K V)
    (h : m ≠ []) : ∃ k v, GoMap.get? m k = some v := by
  cases m with
  | nil => exact absurd rfl h
  | cons kv m =>
    obtain ⟨k, v⟩ := kv
    exact ⟨k, v, by simp [GoMap.get?]⟩

theorem Remove_of_bucket_none {T : Type} (st : CacheState T) (sampleType : Int) (h : Nat)
    (hb : st.c.get? sampleType = none) : Remove st sampleType h = st := by
  unfold Remove
  rw [hb]

theorem Remove_of_emptied {T : Type} (st : CacheState T) (sampleType : Int) (h : Nat)
    (p : GoMap Nat EntryRef) (hb : st.c.get? sampleType = some p) (hp : p.delete h = []) :
    Remove st sampleType h = { st with c := st.c.delete sampleType } := by
  unfold Remove
  rw [hb]
  simp only [hp, GoMap.len, List.map_nil, List.dedup_nil, List.length_nil, if_true]

theorem Remove_of_kept {T : Type} (st : CacheState T) (sampleType : Int) (h : Nat)
    (p : GoMap Nat EntryRef) (hb : st.c.get? sampleType = some p) (hp : p.delete h ≠ []) :
    Remove st sampleType h = { st with c := st.c.set sampleType (p.delete h) } := by
  unfold Remove
  rw [hb]
  have : ¬ GoMap.len (p.delete h) = 0 := fun e => hp ((GoMap.len_eq_zero _).1 e)
  simp only [this, if_false]

/-- C10: after `Remove`, `Get` at the removed (sample type, hash) reports not-found; the
bucket of the sample type is still a key of the outer map exactly when it held an entry under
another hash, so it is absent when the removed entry was its only one; every lookup at
another (sample type, hash) and every other bucket is as before; and `Remove` on a sample
type without bucket changes nothing. -/
theorem Remove_spec {T : Type} (st : CacheState T) (sampleType : Int) (h : Nat) :
    (Get (Remove st sampleType h) sampleType h).1 = (none, false) ∧
      (hasBucket (Remove st sampleType h) sampleType = true ↔
        ∃ p h' e, st.c.get? sampleType = some p ∧ h' ≠ h ∧ p.get? h' = some e) ∧
      (∀ s' h', (s', h') ≠ (sampleType, h) →
        (Get (Remove st sampleType h) s' h').1 = (Get st s' h').1) ∧
      (∀ s', s' ≠ sampleType → hasBucket (Remove st sampleType h) s' = hasBucket st s') ∧
      (hasBucket st sampleType = false → Remove st sampleType h = st) := by
  cases hb : st.c.get? sampleType with
  | none =>
    rw [Remove_of_bucket_none st sampleType h hb]
    refine ⟨?_, ?_, fun _ _ _ => rfl, fun _ _ => rfl, fun _ => rfl⟩
    · rw [Get_of_bucket_none st sampleType h hb]
    · unfold hasBucket
      simp [hb]
  | some p =>
    by_cases hp : p.delete h = []
    · rw [Remove_of_emptied st sampleType h p hb hp]
      refine ⟨?_, ?_, ?_, ?_, ?_⟩
      · rw [Get_fst]
        simp only [lookupEntry_delete_self]
      · unfold hasBucket
        simp only [GoMap.get?_delete_self, Option.isSome_none, Bool.false_eq_true, false_iff]
        rintro ⟨p', h', e, hp', hne, hget⟩
        have : p' = p := (Option.some.inj hp').symm
        subst this
        have := GoMap.get?_delete_ne p' h h' hne
        rw [hp, hget] at this
        simp [GoMap.get?] at this
      · intro s' h' hne
        apply Get_fst_congr
        by_cases hs : s' = sampleType
        · subst hs
          have hh := ne_of_pair_ne hne rfl
          simp only [lookupEntry_delete_self]
          unfold lookupEntry
          rw [hb]
          have := GoMap.get?_delete_ne p h h' hh
          rw [hp] at this
          simp only [Option.some_bind]
          rw [← this]
          rfl
        · exact lookupEntry_delete_ne_bucket _ _ _ _ hs
      · intro s' hs
        unfold hasBucket
        simp only [GoMap.get?_delete_ne _ _ _ hs]
      · intro hno
        unfold hasBucket at hno
        simp [hb] at hno
    · rw [Remove_of_kept st sampleType h p hb hp]
      refine ⟨?_, ?_, ?_, ?_, ?_⟩
      · rw [Get_fst]
        simp only [lookupEntry_set_self, GoMap.get?_delete_self]
      · unfold hasBucket
        simp only [GoMap.get?_set_self, Option.isSome_some, true_iff]
        obtain ⟨k, v, hk⟩ := GoMap.exists_key_of_ne_nil _ hp
        have hne : k ≠ h := by
          intro e
          rw [e, GoMap.get?_delete_self] at hk
          simp at hk
        refine ⟨p, k, v, rfl, hne, ?_⟩
        rw [← GoMap.get?_delete_ne p h k hne]
        exact hk
      · intro s' h' hne
        apply Get_fst_congr
        by_cases hs : s' = sampleType
        · subst hs
          have hh := ne_of_pair_ne hne rfl
          simp only [lookupEntry_set_self]
          unfold lookupEntry
          rw [hb, GoMap.get?_delete_ne p h h' hh]
          rfl
        · exact lookupEntry_set_ne_bucket _ _ _ _ _ hs
      · intro s' hs
        unfold hasBucket
        simp only [GoMap.get?_set_ne _ _ _ _ hs]
      · intro hno
        unfold hasBucket at hno
        simp [hb] at hno

/-- The example of C10: the only entry of sample type 1 is removed and the bucket is gone;
`Remove` for sample type 2, which has no bucket, changes nothing. -/
theorem Remove_spec_witness :
    hasBucket exampleState 2 = false ∧
      Remove exampleState 2 5 = exampleState ∧
      (Get (Remove exampleState 1 5) 1 5).1 = (none, false) ∧
      hasBucket (Remove exampleState 1 5) 1 = false :=
  ⟨rfl, (Remove_spec exampleState 2 5).2.2.2.2 rfl, (Remove_spec exampleState 1 5).1, rfl⟩

/-! ## Further claims on the labels cache -/

theorem sparse_set (c : LabelsCache) (s : Int) (p : GoMap Nat EntryRef) (hc : sparse c)
    (hp : ∃ h e, p.get? h = some e) : sparse (c.set s p) := by
  intro s' p' hget
  by_cases hs : s' = s
  · subst hs
    rw [GoMap.get?_set_self] at hget
    cases hget
    exact hp
  · rw [GoMap.get?_set_ne c s s' p hs] at hget
    exact hc s' p' hget

theorem sparse_delete (c : LabelsCache) (s : Int) (hc : sparse c) : sparse (c.delete s) := by
  intro s' p' hget
  by_cases hs : s' = s
  · subst hs
    rw [GoMap.get?_delete_self] at hget
    cases hget
  · rw [GoMap.get?_delete_ne c s s' hs] at hget
    exact hc s' p' hget

theorem sparse_GetOrCreateTreeByHash {T : Type} (st : CacheState T) (s : Int) (l : Labels)
    (h : Nat) (hc : sparse st.c) : sparse (GetOrCreateTreeByHash st s l h).2.c := by
  unfold GetOrCreateTreeByHash
  cases hb : st.c.get? s with
  | none =>
    exact sparse_set _ _ _ hc ⟨h, _, GoMap.get?_set_self _ _ _⟩
  | some p =>
    simp only
    cases hp : p.get? h with
    | some e => exact hc
    | none => exact sparse_set _ _ _ hc ⟨h, _, GoMap.get?_set_self _ _ _⟩

theorem sparse_GetOrCreateTree {T : Type} (hash : Labels → Nat) (st : CacheState T) (s : Int)
    (l : Labels) (hc : sparse st.c) : sparse (GetOrCreateTree hash st s l).2.c := by
  unfold GetOrCreateTree
  cases hb : st.c.get? s with
  | none =>
    exact sparse_set _ _ _ hc ⟨hash l, _, GoMap.get?_set_self _ _ _⟩
  | some p =>
    simp only
    cases hp : p.get? (hash l) with
    | some e => exact hc
    | none => exact sparse_set _ _ _ hc ⟨hash l, _, GoMap.get?_set_self _ _ _⟩

theorem Get_snd {T : Type} (st : CacheState T) (s : Int) (h : Nat) : (Get st s h).2 = st := by
  cases hb : st.c.get? s with
  | none => rw [Get_of_bucket_none st s h hb]
  | some p =>
    cases hp : p.get? h with
    | none => rw [Get_of_key_none st s h p hb hp]
    | some e => rw [Get_of_key_some st s h p e hb hp]

theorem sparse_set_over (c c1 : LabelsCache) (s : Int) (p : GoMap Nat EntryRef)
    (hc : sparse c) (hsame : ∀ s', s' ≠ s → GoMap.get? c1 s' = GoMap.get? c s')
    (hp : ∃ h e, p.get? h = some e) : sparse (c1.set s p) := by
  intro s' p' hget
  by_cases hs : s' = s
  · subst hs
    rw [GoMap.get?_set_self] at hget
    cases hget
    exact hp
  · rw [GoMap.get?_set_ne c1 s s' p hs, hsame s' hs] at hget
    exact hc s' p' hget

theorem sparse_Put {T : Type} (hash : Labels → Nat) (st st1 : CacheState T) (s : Int)
    (e : EntryRef) (hc : sparse st.c) (hput : Put hash st s e = Outcome.returned st1) :
    sparse st1.c := by
  unfold Put at hput
  cases he : st.heap.get? e with
  | none =>
    rw [he] at hput
    cases hput
  | some entry =>
    rw [he] at hput
    simp only [Outcome.returned.injEq] at hput
    rw [← hput]
    exact sparse_set_over st.c _ s _ hc (fun s' hs => get?_storeBucket_ne st.c s s' hs)
      ⟨_, _, GoMap.get?_set_self _ _ _⟩

theorem sparse_Remove {T : Type} (st : CacheState T) (s : Int) (h : Nat)
    (hc : sparse st.c) : sparse (Remove st s h).c := by
  cases hb : st.c.get? s with
  | none => rw [Remove_of_bucket_none st s h hb]; exact hc
  | some p =>
    by_cases hp : p.delete h = []
    · rw [Remove_of_emptied st s h p hb hp]
      exact sparse_delete _ _ hc
    · rw [Remove_of_kept st s h p hb hp]
      obtain ⟨k, v, hk⟩ := GoMap.exists_key_of_ne_nil _ hp
      exact sparse_set _ _ _ hc ⟨k, v, hk⟩

theorem sparse_stepCall {T : Type} (hash : Labels → Nat) (st st1 : CacheState T)
    (call : CacheCall) (hc : sparse st.c)
    (hstep : stepCall hash st call = Outcome.returned st1) : sparse st1.c := by
  cases call with
  | getOrCreateTree s l =>
    simp only [stepCall, Outcome.returned.injEq] at hstep
    rw [← hstep]
    exact sparse_GetOrCreateTree hash st s l hc
  | getOrCreateTreeByHash s l h =>
    simp only [stepCall, Outcome.returned.injEq] at hstep
    rw [← hstep]
    exact sparse_GetOrCreateTreeByHash st s l h hc
  | get s h =>
    simp only [stepCall, Outcome.returned.injEq] at hstep
    rw [← hstep, Get_snd]
    exact hc
  | put s e => exact sparse_Put hash st st1 s e hc hstep
  | remove s h =>
    simp only [stepCall, Outcome.returned.injEq] at hstep
    rw [← hstep]
    exact sparse_Remove st s h hc

/-- As long as every call returns, the buckets stay non-empty: `GetOrCreateTree`,
`GetOrCreateTreeByHash` and a `Put` that returns fill the bucket they store, and `Remove`
deletes the bucket it empties. -/
theorem sparse_runCalls {T : Type} (hash : Labels → Nat) (st : CacheState T)
    (calls : List CacheCall) (hc : sparse st.c) (hret : allReturn hash st calls) :
    sparse (runCalls hash st calls).c := by
  induction calls generalizing st with
  | nil => exact hc
  | cons call calls ih =>
    simp only [allReturn] at hret
    simp only [runCalls]
    cases hstep : stepCall hash st call with
    | returned st1 =>
      rw [hstep] at hret
      exact ih st1 (sparse_stepCall hash st st1 call hc hstep) hret
    | panicked st1 =>
      rw [hstep] at hret
      exact absurd hret not_false

theorem not_sparse_empty_bucket (s : Int) : ¬ sparse ([(s, [])] : LabelsCache) := by
  intro h
  obtain ⟨k, e, hk⟩ := h s [] (by simp [GoMap.get?])
  cases hk

/-- C11 fails on the code at `Put(7, nil)` on the empty cache: `Put` stores the new bucket of
sample type 7 before `e.Hash()` dereferences the entry, so the call panics and leaves the
cache with the bucket 7 present and empty; the cache after this sequence of one call does not
have only non-empty buckets. -/
theorem Put_nil_leaves_empty_bucket :
    Put exampleHash ({ heap := [], c := [] } : CacheState Unit) 7 0 =
        Outcome.panicked { heap := [], c := [(7, [])] } ∧
      (runCalls exampleHash ({ heap := [], c := [] } : CacheState Unit)
        [CacheCall.put 7 0]).c = [(7, [])] ∧
      ¬ sparse (runCalls exampleHash ({ heap := [], c := [] } : CacheState Unit)
        [CacheCall.put 7 0]).c :=
  ⟨rfl, rfl, not_sparse_empty_bucket 7⟩

/-! ## Claims on label sets -/

theorem labelFields_CopyLabel (l : Label) : labelFields (CopyLabel l) = labelFields l := rfl

theorem cutLoop_no_hit (i : Int) (j : Nat) (labels c : Labels)
    (h : ∀ k, k < labels.length → i ≠ ((j + k : Nat) : Int)) :
    cutLoop i j labels c = c ++ labels.map CopyLabel := by
  induction labels generalizing j c with
  | nil => simp [cutLoop]
  | cons l rest ih =>
    have h0 : i ≠ (j : Int) := by
      have := h 0 (by simp)
      simpa using this
    simp only [cutLoop, h0, ne_eq, not_false_eq_true, if_true]
    rw [ih (j + 1) _ (fun k hk => by
      have := h (k + 1) (by simpa using hk)
      have e : j + 1 + k = j + (k + 1) := by omega
      rw [e]; exact this)]
    simp

theorem cutLoop_hit (j k : Nat) (labels c : Labels) (hk : k < labels.length) :
    cutLoop ((j + k : Nat) : Int) j labels c =
      c ++ (labels.take k ++ labels.drop (k + 1)).map CopyLabel := by
  induction labels generalizing j k c with
  | nil => simp at hk
  | cons l rest ih =>
    cases k with
    | zero =>
      simp only [cutLoop, Nat.add_zero, ne_eq, not_true_eq_false, if_false, List.take_zero,
        List.nil_append, zero_add, List.drop_succ_cons, List.drop_zero]
      exact cutLoop_no_hit _ (j + 1) rest c (fun k _ => by
        intro e
        have := Int.ofNat.inj e
        omega)
    | succ k =>
      have hne : ((j + (k + 1) : Nat) : Int) ≠ (j : Int) := by
        intro e
        have := Int.ofNat.inj e
        omega
      have e : j + (k + 1) = j + 1 + k := by omega
      simp only [cutLoop, hne, ne_eq, not_false_eq_true, if_true]
      rw [e, ih (j + 1) k _ (by simpa using hk)]
      simp

/-- C12: for a label set of length `n ≥ 1` and an index `i < n`, `CutLabel` returns the copies
of `labels[0..i-1]` followed by the copies of `labels[i+1..n-1]`, in that order, `n - 1`
labels in all, each copy with the `Key`, `Str`, `Num` and `NumUnit` of its original. -/
theorem CutLabel_removes_index (labels : Labels) (i : Nat) (hi : i < labels.length) :
    CutLabel labels (i : Int) =
        some ((labels.take i ++ labels.drop (i + 1)).map CopyLabel) ∧
      ((labels.take i ++ labels.drop (i + 1)).map CopyLabel).length = labels.length - 1 ∧
      ∀ l : Label, labelFields (CopyLabel l) = labelFields l := by
  refine ⟨?_, ?_, labelFields_CopyLabel⟩
  · unfold CutLabel
    have hlen : ¬ ((labels.length : Int) - 1 < 0) := by omega
    rw [if_neg hlen]
    have := cutLoop_hit 0 i labels [] hi
    simp only [Nat.zero_add, List.nil_append] at this
    rw [this]
  · simp only [List.length_map, List.length_append, List.length_take, List.length_drop]
    omega

/-- The example of C12: index 1 cut from `[(k1,v1), (k2,v2), (k3,v3)]` leaves
`[(k1,v1), (k3,v3)]`. -/
theorem CutLabel_removes_index_witness :
    1 < exampleThree.length ∧
      CutLabel exampleThree 1 =
        some [{ Key := 1, Str := 11, Num := 0, NumUnit := 0 },
          { Key := 3, Str := 13, Num := 0, NumUnit := 0 }] :=
  ⟨by decide, (CutLabel_removes_index exampleThree 1 (by decide)).1⟩

/-- On label values, `CopyLabels` gives a label set of the same length whose element at every
index has the `Key`, `Str`, `Num` and `NumUnit` of the element of the input at that index. -/
theorem CopyLabels_same_fields (labels : Labels) :
    (CopyLabels labels).length = labels.length ∧
      ∀ i : Nat, ((CopyLabels labels).get? i).map labelFields =
        (labels.get? i).map labelFields := by
  constructor
  · simp [CopyLabels]
  · intro i
    unfold CopyLabels
    rw [List.get?_eq_getElem?, List.get?_eq_getElem?, List.getElem?_map]
    cases labels[i]? with
    | none => rfl
    | some l => rfl

/-- C20: `CutLabel` has no result exactly when the label set is empty; on a non-empty label
set it returns, and for an index outside `[0, len(labels))` what it returns is the copy of
the whole label set, nothing removed. -/
theorem CutLabel_fails_iff_empty (labels : Labels) (i : Int) :
    (CutLabel labels i = none ↔ labels = []) ∧
      (labels ≠ [] → ∃ r, CutLabel labels i = some r) ∧
      (labels ≠ [] → (i < 0 ∨ (labels.length : Int) ≤ i) →
        CutLabel labels i = some (labels.map CopyLabel)) := by
  have hdec : labels ≠ [] → ¬ ((labels.length : Int) - 1 < 0) := by
    intro hne
    have : 0 < labels.length := List.length_pos.2 hne
    omega
  refine ⟨?_, ?_, ?_⟩
  · unfold CutLabel
    constructor
    · intro h
      by_contra hne
      rw [if_neg (hdec hne)] at h
      cases h
    · intro h
      subst h
      rfl
  · intro hne
    unfold CutLabel
    rw [if_neg (hdec hne)]
    exact ⟨_, rfl⟩
  · intro hne hout
    unfold CutLabel
    rw [if_neg (hdec hne)]
    have := cutLoop_no_hit i 0 labels [] (fun k hk => by
      intro e
      rcases hout with h | h
      · omega
      · omega)
    simp only [List.nil_append] at this
    rw [this]

/-- The example of C20: on the empty label set there is no result; with the index 3 or -1 the
three labels are all copied. -/
theorem CutLabel_fails_iff_empty_witness :
    CutLabel [] 0 = none ∧ exampleThree ≠ [] ∧
      CutLabel exampleThree 3 = some exampleThree ∧
      CutLabel exampleThree (-1) = some exampleThree :=
  ⟨rfl, by decide, (CutLabel_fails_iff_empty exampleThree 3).2.2 (by decide) (by decide),
    (CutLabel_fails_iff_empty exampleThree (-1)).2.2 (by decide) (by decide)⟩

/-! ## Copies of labels -/

theorem deref_append (heap extra : List Label) (p : Ptr.LabelPtr) (l : Label)
    (h : Ptr.deref heap p = some l) : Ptr.deref (heap ++ extra) p = some l := by
  cases p with
  | none => cases h
  | some a =>
    simp only [Ptr.deref] at h ⊢
    have ha : a < heap.length := by
      rcases List.get?_eq_some.1 h with ⟨ha, _⟩
      exact ha
    rw [List.get?_eq_getElem?, List.getElem?_append_left ha, ← List.get?_eq_getElem?]
    exact h

theorem get?_append_left_lt {α : Type} (l extra : List α) (a : Nat) (ha : a < l.length) :
    (l ++ extra).get? a = l.get? a := by
  rw [List.get?_eq_getElem?, List.get?_eq_getElem?, List.getElem?_append_left ha]

theorem copyLoop_spec (rest : Ptr.Labels) (i : Nat) (heap : List Label) (l : Ptr.Labels)
    (hvalid : ∀ p ∈ rest, ∃ x, Ptr.deref heap p = some x)
    (hlen : i + rest.length ≤ l.length) :
    ∃ res heap', Ptr.copyLoop i rest heap l = some (res, heap') ∧
      res.length = l.length ∧
      heap'.length = heap.length + rest.length ∧
      (∀ a, a < heap.length → heap'.get? a = heap.get? a) ∧
      (∀ j, j < i → res.get? j = l.get? j) ∧
      ∀ k, k < rest.length →
        res.get? (i + k) = some (some (heap.length + k)) ∧
          ∃ x, (rest.get? k).bind (Ptr.deref heap) = some x ∧
            heap'.get? (heap.length + k) = some (CopyLabel x) := by
  induction rest generalizing i heap l with
  | nil =>
    refine ⟨l, heap, rfl, rfl, rfl, fun _ _ => rfl, fun _ _ => rfl, ?_⟩
    intro k hk
    simp at hk
  | cons v rest ih =>
    obtain ⟨x, hx⟩ := hvalid v (List.mem_cons_self v rest)
    have hlen' : i + 1 + rest.length ≤ (l.set i (some heap.length)).length := by
      simp only [List.length_set]
      simp only [List.length_cons] at hlen
      omega
    have hi : i < l.length := by
      simp only [List.length_cons] at hlen
      omega
    obtain ⟨res, heap', hrun, hres, hheap, hold, hkeep, hnew⟩ :=
      ih (i + 1) (heap ++ [CopyLabel x]) (l.set i (some heap.length))
        (fun p hp => by
          obtain ⟨y, hy⟩ := hvalid p (List.mem_cons_of_mem v hp)
          exact ⟨y, deref_append heap _ p y hy⟩) hlen'
    have hstep : Ptr.copyLoop i (v :: rest) heap l = some (res, heap') := by
      simp only [Ptr.copyLoop, Ptr.CopyLabel, hx]
      exact hrun
    have hlen1 : (heap ++ [CopyLabel x]).length = heap.length + 1 := by simp
    refine ⟨res, heap', hstep, ?_, ?_, ?_, ?_, ?_⟩
    · rw [hres, List.length_set]
    · rw [hheap, hlen1, List.length_cons]
      omega
    · intro a ha
      rw [hold a (by rw [hlen1]; omega)]
      exact get?_append_left_lt heap _ a ha
    · intro j hj
      rw [hkeep j (by omega)]
      rw [List.get?_eq_getElem?, List.get?_eq_getElem?, List.getElem?_set_ne (by omega)]
    · intro k hk
      cases k with
      | zero =>
        refine ⟨?_, x, ?_, ?_⟩
        · rw [Nat.add_zero, hkeep i (by omega)]
          rw [List.get?_eq_getElem?, List.getElem?_set_self hi]
          rfl
        · simpa using hx
        · rw [Nat.add_zero, hold heap.length (by rw [hlen1]; omega)]
          rw [List.get?_eq_getElem?, List.getElem?_append_right (Nat.le_refl _)]
          simp
      | succ k =>
        have hk' : k < rest.length := by simpa using hk
        obtain ⟨h1, y, hy, h2⟩ := hnew k hk'
        have e1 : i + (k + 1) = i + 1 + k := by omega
        have e2 : heap.length + (k + 1) = (heap ++ [CopyLabel x]).length + k := by
          rw [hlen1]; omega
        refine ⟨?_, y, ?_, ?_⟩
        · rw [e1, e2]; exact h1
        · simp only [List.get?_cons_succ]
          cases hg : rest.get? k with
          | none => rw [hg] at hy; cases hy
          | some p =>
            rw [hg] at hy
            simp only [Option.some_bind] at hy ⊢
            obtain ⟨z, hz⟩ := hvalid p (List.mem_cons_of_mem v (List.get?_mem hg))
            have := deref_append heap [CopyLabel x] p z hz
            rw [this] at hy
            rw [hz]
            exact hy
        · rw [e2]; exact h2

/-- C13: for a label set whose pointers all point to labels, `CopyLabels` returns a label set
of the same length; its pointer at every index is a newly allocated label, at an address that
no label had before (so it is none of the input pointers), with the `Key`, `Str`, `Num` and
`NumUnit` of the label at that index of the input; the labels that existed before are as they
were. -/
theorem CopyLabels_copies_every_label (heap : List Label) (labels : Ptr.Labels)
    (hvalid : ∀ p ∈ labels, ∃ l, Ptr.deref heap p = some l) :
    ∃ res heap', Ptr.CopyLabels heap labels = some (res, heap') ∧
      res.length = labels.length ∧
      heap'.length = heap.length + labels.length ∧
      (∀ a, a < heap.length → heap'.get? a = heap.get? a) ∧
      ∀ i, i < labels.length →
        res.get? i = some (some (heap.length + i)) ∧
          ∃ l l', (labels.get? i).bind (Ptr.deref heap) = some l ∧
            (res.get? i).bind (Ptr.deref heap') = some l' ∧
            labelFields l' = labelFields l := by
  obtain ⟨res, heap', hrun, hres, hheap, hold, _, hnew⟩ :=
    copyLoop_spec labels 0 heap (List.replicate labels.length none) hvalid (by simp)
  refine ⟨res, heap', hrun, ?_, hheap, hold, ?_⟩
  · rw [hres, List.length_replicate]
  · intro i hi
    obtain ⟨h1, x, hx, h2⟩ := hnew i hi
    rw [Nat.zero_add] at h1
    refine ⟨h1, x, CopyLabel x, hx, ?_, rfl⟩
    rw [h1]
    simp only [Option.some_bind, Ptr.deref]
    exact h2

/-- The example of C13: two labels at the addresses 0 and 1, the second pointed to twice; the
three pointers returned are the new addresses 2, 3 and 4, and the labels there are those of
the input, in its order. -/
theorem CopyLabels_copies_every_label_witness :
    (∀ p ∈ ([some 0, some 1, some 1] : Ptr.Labels),
        ∃ l, Ptr.deref [{ Key := 1, Str := 11, Num := 0, NumUnit := 0 },
          { Key := 2, Str := 12, Num := 0, NumUnit := 0 }] p = some l) ∧
      Ptr.CopyLabels [{ Key := 1, Str := 11, Num := 0, NumUnit := 0 },
          { Key := 2, Str := 12, Num := 0, NumUnit := 0 }] [some 0, some 1, some 1] =
        some ([some 2, some 3, some 4],
          [{ Key := 1, Str := 11, Num := 0, NumUnit := 0 },
            { Key := 2, Str := 12, Num := 0, NumUnit := 0 },
            { Key := 1, Str := 11, Num := 0, NumUnit := 0 },
            { Key := 2, Str := 12, Num := 0, NumUnit := 0 },
            { Key := 2, Str := 12, Num := 0, NumUnit := 0 }]) ∧
      ∃ res heap', Ptr.CopyLabels [{ Key := 1, Str := 11, Num := 0, NumUnit := 0 },
          { Key := 2, Str := 12, Num := 0, NumUnit := 0 }] [some 0, some 1, some 1] =
          some (res, heap') ∧ res.length = 3 := by
  have hv : ∀ p ∈ ([some 0, some 1, some 1] : Ptr.Labels),
      ∃ l, Ptr.deref [{ Key := 1, Str := 11, Num := 0, NumUnit := 0 },
        { Key := 2, Str := 12, Num := 0, NumUnit := 0 }] p = some l := by
    intro p hp
    simp only [List.mem_cons, List.mem_singleton, List.not_mem_nil, or_false] at hp
    rcases hp with e | e | e <;> subst e <;> exact ⟨_, rfl⟩
  obtain ⟨res, heap', h1, h2, _⟩ := CopyLabels_copies_every_label _ _ hv
  exact ⟨hv, rfl, res, heap', h1, h2⟩

/-! ## Further claims on the call tree -/

/-- C15: on a tree whose nodes all have strictly ascending children, one `InsertStackA` adds
the weight once to the `Total` of every node on the path `root, stack[0], ..., stack[len-1]`
(a node created by the call starting from 0), adds it to the `Self` of the last node of the
path only, and leaves every node off the path as it was. -/
theorem InsertStackA_path_effect (t : Tree) (h : allNodes sortedOk t.root = true)
    (stack : List Bytes) (v : Nat) (p : List Bytes) :
    statAt (InsertStackA t stack v).root p =
      if p <+: stack then
        some ((((statAt t.root p).getD (0, 0)).1 + v) % u64,
          if p = stack then (((statAt t.root p).getD (0, 0)).2 + v) % u64
          else ((statAt t.root p).getD (0, 0)).2)
      else statAt t.root p := by
  rw [InsertStackA_root t stack v h]
  exact statAt_insertRef stack v t.root p h

/-- The example of C15: after `["a","b"]` with weight 3, the insertion of `["a","c"]` with
weight 2 brings the node `"a"` to `Total = 5`, `Self = 0`, creates `"c"` with `Total = 2`,
`Self = 2`, and leaves `"b"` at `Total = 3`, `Self = 3`. -/
theorem InsertStackA_path_effect_witness :
    allNodes sortedOk (InsertStackA (NewA { Arena := 0 }) [[97], [98]] 3).root = true ∧
      statAt (InsertStackA (InsertStackA (NewA { Arena := 0 }) [[97], [98]] 3)
        [[97], [99]] 2).root [[97]] = some (5, 0) ∧
      statAt (InsertStackA (InsertStackA (NewA { Arena := 0 }) [[97], [98]] 3)
        [[97], [99]] 2).root [[97], [99]] = some (2, 2) ∧
      statAt (InsertStackA (InsertStackA (NewA { Arena := 0 }) [[97], [98]] 3)
        [[97], [99]] 2).root [[97], [98]] = some (3, 3) :=
  ⟨rfl,
    InsertStackA_path_effect (InsertStackA (NewA { Arena := 0 }) [[97], [98]] 3) rfl
      [[97], [99]] 2 [[97]],
    InsertStackA_path_effect (InsertStackA (NewA { Arena := 0 }) [[97], [98]] 3) rfl
      [[97], [99]] 2 [[97], [99]],
    InsertStackA_path_effect (InsertStackA (NewA { Arena := 0 }) [[97], [98]] 3) rfl
      [[97], [99]] 2 [[97], [98]]⟩

/-- C17: `InsertStackA` with the empty stack adds the weight to the `Total` and to the `Self`
of the root and changes nothing else: the children of the root, and so every other node, are
as before, and no node is created. -/
theorem InsertStackA_empty_stack (t : Tree) (v : Nat) :
    InsertStackA t [] v =
      { root := treeNode.mk t.root.Name ((t.root.Total + v) % u64) ((t.root.Self + v) % u64)
          t.root.ChildrenNodes,
        arena := t.arena } := by
  obtain ⟨root, ar⟩ := t
  cases root with
  | mk name total self cs =>
    cases ar with
    | none => rfl
    | some a => rfl

theorem updateAt_id {α : Type} (i : Nat) (l : List α) : updateAt (fun x => x) i l = l := by
  induction l generalizing i with
  | nil => cases i <;> rfl
  | cons x xs ih =>
    cases i with
    | zero => rfl
    | succ i => simp [updateAt, ih]

theorem childMissing_lowerIdx_iff (cs : List treeNode) (t : Bytes) (h : cs.Pairwise nameLt) :
    childMissing cs t (lowerIdx cs t) = true ↔ ∀ c ∈ cs, c.Name ≠ t := by
  induction cs with
  | nil => simp [childMissing_nil]
  | cons c cs ih =>
    have ih := ih (List.pairwise_cons.1 h).2
    rw [lowerIdx_cons]
    by_cases hlt : bytesCompare c.Name t < 0
    · simp only [hlt, if_true, childMissing_cons_succ, ih, List.mem_cons, forall_eq_or_imp]
      constructor
      · intro hcs
        exact ⟨bytesCompare_lt_ne hlt, hcs⟩
      · intro hcs
        exact hcs.2
    · simp only [hlt, if_false, childMissing_cons_zero, List.mem_cons, forall_eq_or_imp]
      by_cases he : c.Name = t
      · simp [he]
      · have htail := nameLt_not_ge_tail c cs t h hlt
        simp only [he, decide_False, Bool.not_false, ne_eq, not_false_eq_true, true_and, true_iff]
        exact fun d hd => (htail d hd).2

theorem childMissing_false_get (cs : List treeNode) (t : Bytes) (i : Nat)
    (h : childMissing cs t i = false) : ∃ c, cs.get? i = some c ∧ c.Name = t := by
  unfold childMissing at h
  simp only [Bool.or_eq_false_iff] at h
  cases hg : cs.get? i with
  | none =>
    have := h.2
    rw [hg] at this
    cases this
  | some c =>
    have := h.2
    rw [hg] at this
    simp only [bytesEqual, Bool.not_eq_false', decide_eq_true_eq] at this
    exact ⟨c, rfl, this⟩

theorem get?_take_cons_drop {α : Type} (l : List α) (x : α) (i : Nat) (hi : i ≤ l.length) :
    (l.take i ++ x :: l.drop i).get? i = some x := by
  induction l generalizing i with
  | nil =>
    have : i = 0 := by simpa using hi
    subst this
    rfl
  | cons y ys ih =>
    cases i with
    | zero => rfl
    | succ i =>
      simp only [List.take_succ_cons, List.drop_succ_cons, List.cons_append,
        List.get?_cons_succ]
      exact ih i (by simpa using hi)

/-- C16: on strictly ascending children, `insertA` for a frame name `t` returns the child
named `t` and leaves the children as they are when there is such a child; when there is none
it returns a new child with name `t`, `Total = Self = 0` and no children, and the children
become the former ones, in their order, with the new child put in at the returned index, which
keeps them strictly ascending. -/
theorem insertA_spec (a : ArenaWrapper) (cs : List treeNode) (t : Bytes)
    (h : cs.Pairwise nameLt) :
    ((∃ c ∈ cs, c.Name = t) →
        (insertA a cs t).2 = cs ∧
          ∃ c ∈ cs, c.Name = t ∧ (insertA a cs t).2.get? (insertA a cs t).1 = some c) ∧
      ((¬ ∃ c ∈ cs, c.Name = t) →
        (insertA a cs t).2 =
            cs.take (insertA a cs t).1 ++ treeNode.mk t 0 0 [] :: cs.drop (insertA a cs t).1 ∧
          (insertA a cs t).2.get? (insertA a cs t).1 = some (treeNode.mk t 0 0 []) ∧
          (insertA a cs t).2.Pairwise nameLt) := by
  have hsorted : (insertA a cs t).2.Pairwise nameLt := by
    have := insertA_upsert a (fun x => x) t cs h
    rw [updateAt_id] at this
    rw [this]
    exact upsert_pairwise _ t cs (fun _ => rfl) h
  have hiff := childMissing_lowerIdx_iff cs t h
  have hfst : (insertA a cs t).1 = lowerIdx cs t := by
    rw [insertA_fst, searchIndex_eq_lowerIdx cs t h]
  constructor
  · intro hex
    have hm : childMissing cs t (lowerIdx cs t) = false := by
      cases hc : childMissing cs t (lowerIdx cs t) with
      | false => rfl
      | true =>
        obtain ⟨c, hc1, hc2⟩ := hex
        exact absurd hc2 (hiff.1 hc c hc1)
    have hsnd : (insertA a cs t).2 = cs := by
      unfold insertA
      simp only [searchIndex_eq_lowerIdx cs t h, hm, Bool.false_eq_true, if_false]
    refine ⟨hsnd, ?_⟩
    obtain ⟨c, hg, hn⟩ := childMissing_false_get cs t _ hm
    exact ⟨c, List.get?_mem hg, hn, by rw [hsnd, hfst]; exact hg⟩
  · intro hnex
    have hm : childMissing cs t (lowerIdx cs t) = true :=
      hiff.2 (fun c hc e => hnex ⟨c, hc, e⟩)
    have hsnd : (insertA a cs t).2 =
        cs.take (lowerIdx cs t) ++ treeNode.mk t 0 0 [] :: cs.drop (lowerIdx cs t) := by
      unfold insertA
      simp only [searchIndex_eq_lowerIdx cs t h, hm, if_true]
      rw [insertChildAt_eq a cs _ _ (lowerIdx_le cs t)]
      rfl
    refine ⟨by rw [hfst]; exact hsnd, ?_, hsorted⟩
    rw [hfst, hsnd]
    exact get?_take_cons_drop cs _ _ (lowerIdx_le cs t)

/-- The example of C16: among the children `"a"`, `"c"` the name `"b"` is new and is put in
between at index 1; the name `"c"` is found at index 1 and the children stay as they are. -/
theorem insertA_spec_witness :
    [treeNode.mk [97] 5 0 [], treeNode.mk [99] 2 2 []].Pairwise nameLt ∧
      insertA { Arena := 0 } [treeNode.mk [97] 5 0 [], treeNode.mk [99] 2 2 []] [98] =
        (1, [treeNode.mk [97] 5 0 [], treeNode.mk [98] 0 0 [], treeNode.mk [99] 2 2 []]) ∧
      insertA { Arena := 0 } [treeNode.mk [97] 5 0 [], treeNode.mk [99] 2 2 []] [99] =
        (1, [treeNode.mk [97] 5 0 [], treeNode.mk [99] 2 2 []]) ∧
      (insertA { Arena := 0 } [treeNode.mk [97] 5 0 [], treeNode.mk [99] 2 2 []] [98]).2.Pairwise
        nameLt :=
  ⟨by decide, rfl, rfl,
    ((insertA_spec { Arena := 0 } [treeNode.mk [97] 5 0 [], treeNode.mk [99] 2 2 []] [98]
      (by decide)).2 (by
        rintro ⟨c, hc, hn⟩
        simp only [List.mem_cons, List.mem_singleton, List.not_mem_nil, or_false] at hc
        rcases hc with e | e <;> subst e <;> simp [Name_mk] at hn)).2.2⟩

/-! ## Claims on the entries of the cache -/

theorem GetOrCreateTree_byHash {T : Type} (hash : Labels → Nat) (st : CacheState T)
    (s : Int) (l : Labels) :
    GetOrCreateTree hash st s l = GetOrCreateTreeByHash st s l (hash l) := by
  unfold GetOrCreateTreeByHash GetOrCreateTree
  cases st.c.get? s with
  | none => rfl
  | some p => rfl

theorem GetOrCreateTreeByHash_again {T : Type} (st : CacheState T) (s : Int)
    (l1 l2 : Labels) (h : Nat) :
    GetOrCreateTreeByHash (GetOrCreateTreeByHash st s l1 h).2 s l2 h =
      ((GetOrCreateTreeByHash st s l1 h).1, (GetOrCreateTreeByHash st s l1 h).2) := by
  unfold GetOrCreateTreeByHash
  cases hb : st.c.get? s with
  | none => simp only [GoMap.get?_set_self]
  | some p =>
    simp only
    cases hp : p.get? h with
    | some e => simp only [hb, hp]
    | none => simp only [GoMap.get?_set_self]

theorem GetOrCreateTreeByHash_miss {T : Type} (st : CacheState T) (s : Int) (l : Labels)
    (h : Nat) (hmiss : lookupEntry st.c s h = none) :
    (GetOrCreateTreeByHash st s l h).1 = st.heap.length ∧
      (GetOrCreateTreeByHash st s l h).2.heap =
        st.heap ++ [{ Labels := CopyLabels l, Value := none }] ∧
      lookupEntry (GetOrCreateTreeByHash st s l h).2.c s h = some st.heap.length := by
  unfold lookupEntry at hmiss
  unfold GetOrCreateTreeByHash
  cases hb : st.c.get? s with
  | none =>
    simp only [NewCacheEntry, lookupEntry_set_self, GoMap.get?_set_self, and_self]
  | some p =>
    rw [hb] at hmiss
    simp only [Option.some_bind] at hmiss
    simp only [hmiss, NewCacheEntry, lookupEntry_set_self, GoMap.get?_set_self, and_self]

theorem get?_length_append {α : Type} (l : List α) (x : α) :
    (l ++ [x]).get? l.length = some x := by
  induction l with
  | nil => rfl
  | cons y ys ih => simp

/-- C18, as stated, fails: in a cache that already holds an entry for (1, 5), with one label,
`GetOrCreateTreeByHash` with three labels and the hash 5 returns that entry, and so does the
call with no label that follows; its labels are the one label, not a copy of the three. -/
theorem collision_labels_counterexample :
    (GetOrCreateTreeByHash exampleState 1 exampleThree 5).1 = 0 ∧
      (GetOrCreateTreeByHash (GetOrCreateTreeByHash exampleState 1 exampleThree 5).2 1 [] 5).1 =
        0 ∧
      ((GetOrCreateTreeByHash (GetOrCreateTreeByHash exampleState 1 exampleThree 5).2 1 []
        5).2.heap.get? 0).map (fun entry => entry.Labels) = some exampleLabels ∧
      exampleLabels ≠ CopyLabels exampleThree := by
  refine ⟨rfl, rfl, rfl, ?_⟩
  decide

/-- C18, amended: after `GetOrCreateTreeByHash` with a label set `l1` and a hash `h` returned
`e`, the call with another label set `l2` and the same sample type and hash returns `e` and
changes neither the cache nor any entry, so no entry is created for `l2` and the labels of `e`
stay what they were: the copy of `l1` when the first call created `e`. Likewise for
`GetOrCreateTree` when the two label sets have the same hash. -/
theorem lookup_by_hash_only {T : Type} (hash : Labels → Nat) (st : CacheState T) (s : Int)
    (l1 l2 : Labels) (h : Nat) :
    GetOrCreateTreeByHash (GetOrCreateTreeByHash st s l1 h).2 s l2 h =
        ((GetOrCreateTreeByHash st s l1 h).1, (GetOrCreateTreeByHash st s l1 h).2) ∧
      (lookupEntry st.c s h = none →
        ((GetOrCreateTreeByHash st s l1 h).2.heap.get? (GetOrCreateTreeByHash st s l1 h).1).map
          (fun entry => entry.Labels) = some (CopyLabels l1)) ∧
      (hash l1 = hash l2 →
        GetOrCreateTree hash (GetOrCreateTree hash st s l1).2 s l2 =
          ((GetOrCreateTree hash st s l1).1, (GetOrCreateTree hash st s l1).2)) := by
  refine ⟨GetOrCreateTreeByHash_again st s l1 l2 h, ?_, ?_⟩
  · intro hmiss
    obtain ⟨h1, h2, _⟩ := GetOrCreateTreeByHash_miss st s l1 h hmiss
    rw [h1, h2, get?_length_append]
    rfl
  · intro hh
    rw [GetOrCreateTree_byHash hash st s l1, GetOrCreateTree_byHash hash _ s l2, ← hh]
    exact GetOrCreateTreeByHash_again st s l1 l2 (hash l1)

/-- The example of C18, amended: on the empty cache the entry created for three labels under
the hash 5 is returned for the empty label set under the hash 5, and it holds the three
labels. -/
theorem lookup_by_hash_only_witness :
    lookupEntry ({ heap := [], c := [] } : CacheState Unit).c 1 5 = none ∧
      (GetOrCreateTreeByHash
        (GetOrCreateTreeByHash ({ heap := [], c := [] } : CacheState Unit) 1 exampleThree 5).2
        1 [] 5).1 = 0 ∧
      ((GetOrCreateTreeByHash ({ heap := [], c := [] } : CacheState Unit) 1 exampleThree
        5).2.heap.get? 0).map (fun entry => entry.Labels) = some exampleThree :=
  ⟨rfl,
    congrArg Prod.fst (lookup_by_hash_only exampleHash
      ({ heap := [], c := [] } : CacheState Unit) 1 exampleThree [] 5).1,
    (lookup_by_hash_only exampleHash ({ heap := [], c := [] } : CacheState Unit) 1
      exampleThree [] 5).2.1 rfl⟩

/-- C19, as stated, fails: the entry that `GetOrCreateTree` creates on a miss has a nil
`Value`, not an empty tree. -/
theorem new_entry_value_counterexample :
    ((GetOrCreateTree exampleHash ({ heap := [], c := [] } : CacheState Tree) 1
      exampleLabels).2.heap.get? 0).map (fun entry => entry.Value) = some none := rfl

/-- C19, amended: on a miss `GetOrCreateTree` and `GetOrCreateTreeByHash` allocate one new
entry, with a nil `Value` and with a copy of the label set as its labels (same length, and at
every index the same `Key`, `Str`, `Num`, `NumUnit`), return it, and insert it under the
sample type and the hash. -/
theorem miss_creates_entry {T : Type} (hash : Labels → Nat) (st : CacheState T) (s : Int)
    (l : Labels) (h : Nat) :
    (lookupEntry st.c s h = none →
        (GetOrCreateTreeByHash st s l h).1 = st.heap.length ∧
          (GetOrCreateTreeByHash st s l h).2.heap =
            st.heap ++ [{ Labels := CopyLabels l, Value := none }] ∧
          lookupEntry (GetOrCreateTreeByHash st s l h).2.c s h = some st.heap.length) ∧
      (lookupEntry st.c s (hash l) = none →
        (GetOrCreateTree hash st s l).1 = st.heap.length ∧
          (GetOrCreateTree hash st s l).2.heap =
            st.heap ++ [{ Labels := CopyLabels l, Value := none }] ∧
          lookupEntry (GetOrCreateTree hash st s l).2.c s (hash l) = some st.heap.length) ∧
      (CopyLabels l).length = l.length ∧
      ∀ i : Nat, ((CopyLabels l).get? i).map labelFields = (l.get? i).map labelFields := by
  refine ⟨GetOrCreateTreeByHash_miss st s l h, ?_, ?_, ?_⟩
  · intro hmiss
    rw [GetOrCreateTree_byHash]
    exact GetOrCreateTreeByHash_miss st s l (hash l) hmiss
  · simp [CopyLabels]
  · intro i
    unfold CopyLabels
    rw [List.get?_eq_getElem?, List.get?_eq_getElem?, List.getElem?_map]
    cases l[i]? with
    | none => rfl
    | some x => rfl

/-- The example of C19, amended: on the empty cache the entry created for one label is the
entry at address 0, with a nil `Value` and the label. -/
theorem miss_creates_entry_witness :
    lookupEntry ({ heap := [], c := [] } : CacheState Tree).c 1 (exampleHash exampleLabels) =
        none ∧
      (GetOrCreateTree exampleHash ({ heap := [], c := [] } : CacheState Tree) 1
        exampleLabels).1 = 0 ∧
      lookupEntry (GetOrCreateTree exampleHash ({ heap := [], c := [] } : CacheState Tree) 1
        exampleLabels).2.c 1 (exampleHash exampleLabels) = some 0 :=
  ⟨rfl,
    ((miss_creates_entry exampleHash ({ heap := [], c := [] } : CacheState Tree) 1
      exampleLabels 0).2.1 rfl).1,
    ((miss_creates_entry exampleHash ({ heap := [], c := [] } : CacheState Tree) 1
      exampleLabels 0).2.1 rfl).2.2⟩

end Pyro
